import Mathlib

/-!
Verification of the transaction extraction and classification pipeline of the
credit-card-ai-transaction-extractor repository.

Python strings are modelled as `List Char`; Python string operations used by the
pipeline (strip, split, upper, substring search, the date-token regex test) are
translated below.  Python `float` values are modelled exactly: a `Frc` is an
unnormalised fraction over ℤ/ℕ (kernel-computable), decimal-literal parsing is
`pyFloatDec`, and IEEE-754 binary64 rounding (round to nearest, ties to even,
normal range) is `fl`; `float(s)` is `parseF = fl ∘ pyFloatDec` and float
addition is `fladd`.  The rational value of a `Frc` is `Frc.val`.
-/

set_option maxRecDepth 20000

namespace TxPipeline

/-- Whitespace characters of Python `str.strip()` / regex `\s` (ASCII range;
the pipeline's data is ASCII apart from Thai description text, which is not
whitespace). -/
def pyIsSpace (c : Char) : Bool :=
  c = ' ' || c = '\t' || c = '\n' || c = '\r' || c = '\x0b' || c = '\x0c'

/-- Remove leading whitespace (the left half of Python `str.strip()`). -/
def stripLeft : List Char → List Char
  | [] => []
  | c :: cs => if pyIsSpace c then stripLeft cs else c :: cs

/-- Remove trailing whitespace. -/
def rstrip (s : List Char) : List Char :=
  (stripLeft s.reverse).reverse

/-- Python `str.strip()`: remove leading and trailing whitespace. -/
def strip (s : List Char) : List Char :=
  rstrip (stripLeft s)

/-- Apply a function to the first element of a list (if any). -/
def mapHead (g : List Char → List Char) : List (List Char) → List (List Char)
  | [] => []
  | p :: ps => g p :: ps

/-- Apply a function to the last element of a list (if any). -/
def mapLast (g : List Char → List Char) : List (List Char) → List (List Char)
  | [] => []
  | [p] => [g p]
  | p :: q :: ps => p :: mapLast g (q :: ps)

/-- Python `str.split(sep)` for a one-character separator.
`splitOnC sep []` is `[[]]`, matching `"".split(sep) == ['']`. -/
def splitOnC (sep : Char) : List Char → List (List Char)
  | [] => [[]]
  | c :: cs => if c = sep then [] :: splitOnC sep cs else mapHead (c :: ·) (splitOnC sep cs)

/-- Segment `i` of a split, defaulting to the empty string (the code only
indexes after checking the segment count). -/
def nth (l : List (List Char)) (i : ℕ) : List Char :=
  l.getD i []

/-- Does `pat` occur at the front of `s`? (Python `str.startswith`.) -/
def startsWithL : List Char → List Char → Bool
  | _, [] => true
  | [], _ :: _ => false
  | c :: cs, d :: ds => c = d && startsWithL cs ds

/-- Does some suffix of `s` satisfy `p`?  Backbone of `re.search`-style tests. -/
def anySuffix (p : List Char → Bool) : List Char → Bool
  | [] => p []
  | c :: cs => p (c :: cs) || anySuffix p cs

/-- Python substring containment `pat in s`. -/
def containsSub (s pat : List Char) : Bool :=
  anySuffix (fun t => startsWithL t pat) s

/-- Python `str.upper()` (ASCII case mapping; the vendor keywords are ASCII). -/
def upperL (s : List Char) : List Char :=
  s.map Char.toUpper

/-- Python `re.match(r'\d{2}/\d{2}/\d{2}', s)` viewed as a Boolean: the first
eight characters are digit digit `/` digit digit `/` digit digit; trailing
characters are permitted (`re.match` anchors only at the start). -/
def matchesDateTok : List Char → Bool
  | a :: b :: c :: d :: e :: f :: g :: h :: _ =>
    a.isDigit && b.isDigit && c = '/' && d.isDigit && e.isDigit && f = '/' &&
      g.isDigit && h.isDigit
  | _ => false

/-- Value of a digit string, most significant digit first. -/
def digitsVal (ds : List Char) : ℕ :=
  ds.foldl (fun a c => 10 * a + (c.toNat - 48)) 0

/-- An unnormalised fraction: the kernel-computable stand-in for ℚ used by the
numeric model (ℚ arithmetic does not reduce in the kernel). All constructors
below produce a positive `den`. -/
structure Frc where
  num : ℤ
  den : ℕ
deriving DecidableEq, Repr

/-- The exact rational value of a fraction. -/
def Frc.val (f : Frc) : ℚ :=
  (f.num : ℚ) / (f.den : ℚ)

/-- Exact addition of fractions. -/
def fadd (a b : Frc) : Frc :=
  ⟨a.num * b.den + b.num * a.den, a.den * b.den⟩

/-- Floor of base-2 logarithm via structural recursion on a fuel argument. -/
def log2fuel : ℕ → ℕ → ℕ
  | 0, _ => 0
  | f + 1, n => if n < 2 then 0 else log2fuel f (n / 2) + 1

/-- Floor of base-2 logarithm of a positive natural. -/
def nlog2 (n : ℕ) : ℕ :=
  log2fuel n n

/-- Round `num/den` (both positive) to an integer, ties to even. -/
def rhe (num den : ℕ) : ℕ :=
  let q := num / den
  let r := num % den
  if 2 * r < den then q
  else if den < 2 * r then q + 1
  else if q % 2 = 0 then q else q + 1

/-- Round the positive rational `num/den` to the nearest IEEE-754 binary64
value (round to nearest, ties to even; normal range — the THB amounts of this
pipeline are far from overflow and subnormal territory).  The exponent `e`
with `2^e ≤ num/den < 2^(e+1)` is located from `nlog2` and corrected by at
most one; the 53-bit significand is obtained with `rhe`. -/
def mkFl (m : ℕ) (e : ℤ) : Frc :=
  if 0 ≤ e - 52 then ⟨(m : ℤ) * 2 ^ (e - 52).toNat, 1⟩
  else ⟨(m : ℤ), 2 ^ (52 - e).toNat⟩

def flPosCore (num den : ℕ) : Frc :=
  let e0 : ℤ := (nlog2 num : ℤ) - (nlog2 den : ℤ)
  let le2pow : ℤ → Bool := fun e =>
    if 0 ≤ e then den * 2 ^ e.toNat ≤ num else den ≤ num * 2 ^ (-e).toNat
  let e : ℤ := if ¬ le2pow e0 then e0 - 1 else if le2pow (e0 + 1) then e0 + 1 else e0
  let s : ℤ := 52 - e
  let m : ℕ :=
    if 0 ≤ s then rhe (num * 2 ^ s.toNat) den
    else rhe num (den * 2 ^ (-s).toNat)
  mkFl m e

/-- Correctly rounded conversion of an exact fraction to binary64. -/
def fl (f : Frc) : Frc :=
  if f.num = 0 then ⟨0, 1⟩
  else if 0 < f.num then flPosCore f.num.toNat f.den
  else
    let p := flPosCore (-f.num).toNat f.den
    ⟨-p.num, p.den⟩

/-- Python float addition: exact sum, then binary64 rounding. -/
def fladd (a b : Frc) : Frc :=
  fl (fadd a b)

/-- Unsigned decimal literal: digits, optionally a point and fraction digits,
at least one digit overall.  Returns the exact value. -/
def pyFloatCore (t : List Char) : Option Frc :=
  let ip := t.takeWhile Char.isDigit
  let rest := t.dropWhile Char.isDigit
  match rest with
  | [] => if ip.isEmpty then none else some ⟨(digitsVal ip : ℤ), 1⟩
  | c :: frac =>
    if c = '.' && frac.all Char.isDigit && !(ip.isEmpty && frac.isEmpty) then
      some ⟨((digitsVal ip * 10 ^ frac.length + digitsVal frac : ℕ) : ℤ), 10 ^ frac.length⟩
    else none

/-- Exact value of the decimal literal accepted by Python `float()`.  Modelled:
surrounding whitespace, an optional sign, and the plain decimal forms
(`123`, `123.45`, `.5`, `5.`) that the pipeline's amount strings take;
exponent, infinity, nan and underscore forms are outside the model. -/
def pyFloatDec (s : List Char) : Option Frc :=
  let t := strip s
  match t with
  | [] => none
  | c :: r =>
    if c = '-' then (pyFloatCore r).map (fun f => ⟨-f.num, f.den⟩)
    else if c = '+' then pyFloatCore r
    else pyFloatCore t

/-- Python `float(s)`: the exact decimal value, correctly rounded to binary64. -/
def parseF (s : List Char) : Option Frc :=
  (pyFloatDec s).map fl

/-- Python `s.replace(',', '')`: drop comma thousands separators. -/
def stripCommas (s : List Char) : List Char :=
  s.filter (fun c => decide (c ≠ ','))

/-- Is a parsed amount strictly positive?  (`den` is positive for every value
`parseF` produces, so the sign is the sign of `num`.) -/
def fpos (f : Frc) : Bool :=
  decide (0 < f.num)

/-- One candidate transaction record (section 3 of the spec). -/
structure Txn where
  statement_id : List Char
  page : List Char
  transaction_date : List Char
  posting_date : List Char
  description : List Char
  amount : List Char
deriving DecidableEq, Repr

def kwOPENROUTER : List Char := "OPENROUTER".data
def kwANTHROPIC : List Char := "ANTHROPIC".data
def kwRUNPOD : List Char := "RUNPOD".data
def kwKIEdotAI : List Char := "KIE.AI".data
def kwKIEspAI : List Char := "KIE AI".data
def kwBUDGIEAI : List Char := "BUDGIEAI".data
def kwBUDGIEspAI : List Char := "BUDGIE AI".data
def kwDIGITALOCEAN : List Char := "DIGITALOCEAN".data
def kwSTRIPE : List Char := "STRIPE".data
def kwZAI : List Char := "Z.AI".data
def kwGOOGLE : List Char := "GOOGLE".data
def kwCLOUD : List Char := "CLOUD".data
def kwKIE : List Char := "KIE".data
def kwAI : List Char := "AI".data

def lbOpenRouter : List Char := "OpenRouter AI".data
def lbAnthropic : List Char := "Anthropic AI".data
def lbRunPod : List Char := "RunPod GPU".data
def lbKie : List Char := "Kie.ai".data
def lbBudgie : List Char := "BudgieAI".data
def lbDigitalOcean : List Char := "DigitalOcean".data
def lbZAI : List Char := "Z.AI Service".data
def lbGoogleCloud : List Char := "Google Cloud".data
def lbOther : List Char := "Other AI Service".data

/-- The vendor classifier of `generate_summary` (ai_workflow.py, lines
198-220): uppercase the description and walk the if/elif chain in source
order. -/
def generate_summary_service (desc : List Char) : List Char :=
  let d := upperL desc
  if containsSub d kwOPENROUTER then lbOpenRouter
  else if containsSub d kwANTHROPIC then lbAnthropic
  else if containsSub d kwRUNPOD then lbRunPod
  else if containsSub d kwKIEdotAI || containsSub d kwKIEspAI then lbKie
  else if containsSub d kwBUDGIEAI || containsSub d kwBUDGIEspAI then lbBudgie
  else if containsSub d kwDIGITALOCEAN then lbDigitalOcean
  else if containsSub d kwSTRIPE && containsSub d kwZAI then lbZAI
  else if containsSub d kwGOOGLE && containsSub d kwCLOUD then lbGoogleCloud
  else lbOther

/-- The classifier table in the exact priority order stated by the spec
(section 4.4): rule 1 OPENROUTER .. rule 7 STRIPE+Z.AI, rule 8 GOOGLE+CLOUD;
`none` when no rule matches.  This definition follows the spec's words and is
compared against the two source classifiers. -/
def specTableService (desc : List Char) : Option (List Char) :=
  let d := upperL desc
  if containsSub d kwOPENROUTER then some lbOpenRouter
  else if containsSub d kwANTHROPIC then some lbAnthropic
  else if containsSub d kwRUNPOD then some lbRunPod
  else if containsSub d kwKIEdotAI || containsSub d kwKIEspAI then some lbKie
  else if containsSub d kwBUDGIEAI || containsSub d kwBUDGIEspAI then some lbBudgie
  else if containsSub d kwDIGITALOCEAN then some lbDigitalOcean
  else if containsSub d kwSTRIPE && containsSub d kwZAI then some lbZAI
  else if containsSub d kwGOOGLE && containsSub d kwCLOUD then some lbGoogleCloud
  else none

/-- The vendor classifier of `format_for_google_sheets` (format_for_sheets.py,
lines 44-67): same signatures but the GOOGLE+CLOUD test is SECOND, before
ANTHROPIC and before STRIPE+Z.AI; `none` when not an AI transaction. -/
def format_sheets_service (desc : List Char) : Option (List Char) :=
  let d := upperL desc
  if containsSub d kwOPENROUTER then some lbOpenRouter
  else if containsSub d kwGOOGLE && containsSub d kwCLOUD then some lbGoogleCloud
  else if containsSub d kwANTHROPIC then some lbAnthropic
  else if containsSub d kwRUNPOD then some lbRunPod
  else if containsSub d kwKIEdotAI || containsSub d kwKIEspAI then some lbKie
  else if containsSub d kwBUDGIEAI || containsSub d kwBUDGIEspAI then some lbBudgie
  else if containsSub d kwDIGITALOCEAN then some lbDigitalOcean
  else if containsSub d kwSTRIPE && containsSub d kwZAI then some lbZAI
  else none

/-- Regex `.*pat` matching at the front of a string: a run of non-newline
characters, then `pat`, then anything. -/
def gapThen (pat : List Char) : List Char → Bool
  | [] => startsWithL [] pat
  | c :: cs => startsWithL (c :: cs) pat || (decide (c ≠ '\n') && gapThen pat cs)

/-- Regex `KIE.AI` (the `.` is a wildcard — the keyword list of
`filter_ai_transactions` uses it unescaped) matching at the front. -/
def kieDotMatch (s : List Char) : Bool :=
  startsWithL s kwKIE &&
    (match s.drop 3 with
     | c :: rest => decide (c ≠ '\n') && startsWithL rest kwAI
     | [] => false)

/-- The AI-keyword test of `filter_ai_transactions` (ai_workflow.py, lines
169-177): uppercase the description, `re.search` each pattern of the keyword
list.  `STRIPE.*Z\.AI` and `GOOGLE.*CLOUD` require the two words in that
order; `KIE.AI` has a wildcard dot. -/
def is_ai (desc : List Char) : Bool :=
  let d := upperL desc
  containsSub d kwOPENROUTER || containsSub d kwANTHROPIC || containsSub d kwRUNPOD ||
  anySuffix kieDotMatch d || containsSub d kwKIEspAI ||
  containsSub d kwBUDGIEAI || containsSub d kwBUDGIEspAI || containsSub d kwDIGITALOCEAN ||
  anySuffix (fun s => startsWithL s kwSTRIPE && gapThen kwZAI (s.drop 6)) d ||
  anySuffix (fun s => startsWithL s kwGOOGLE && gapThen kwCLOUD (s.drop 6)) d

/-- Mode-A keep decision of `filter_ai_transactions`: AI keyword match, then
`float(amount.replace(',',''))` inside try/except, kept only when positive. -/
def keepAI (r : Txn) : Bool :=
  is_ai r.description &&
    (match parseF (stripCommas r.amount) with
     | some f => fpos f
     | none => false)

/-- `filter_ai_transactions` (ai_workflow.py): the rows appended by the loop,
in input order. -/
def filter_ai_transactions (rows : List Txn) : List Txn :=
  rows.filter keepAI

def noTransTok : List Char := "NO_TRANSACTIONS".data
def errTok : List Char := "ERROR".data
def fenceTok : List Char := "```".data
def hdrTok : List Char := "DATE|POSTING".data

/-- Per-line parsing of `parse_transactions` (batch_extract_all.py, lines
53-89): strip the line; skip empty, sentinel, code-fence and header lines;
split on `|`; accept when there are at least 4 segments and the trimmed first
segment starts with the date token. -/
def parseLine (sid pg raw : List Char) : Option Txn :=
  let line := strip raw
  if line.isEmpty || line = noTransTok then none
  else if startsWithL line fenceTok || startsWithL line hdrTok then none
  else
    let parts := splitOnC '|' line
    if parts.length < 4 then none
    else
      let td := strip (nth parts 0)
      if matchesDateTok td then
        some ⟨sid, pg, td, strip (nth parts 1), strip (nth parts 2), strip (nth parts 3)⟩
      else none

/-- `parse_transactions` of batch_extract_all.py: empty output, the sentinel,
or any output containing the substring "ERROR" yields no records; otherwise
each line is parsed independently, in order. -/
def parse_transactions (output sid pg : List Char) : List Txn :=
  if output.isEmpty || output = noTransTok || containsSub output errTok then []
  else (splitOnC '\n' output).filterMap (parseLine sid pg)

/-- Per-line parsing of `extract_transactions_with_opencode` (ai_workflow.py,
lines 86-99): strip the line; accept when it contains `|`, starts with the
date token, and splits into at least 4 segments. -/
def aiwLine (sid pg raw : List Char) : Option Txn :=
  let line := strip raw
  if decide ('|' ∈ line) && matchesDateTok line then
    let parts := splitOnC '|' line
    if parts.length < 4 then none
    else
      some ⟨sid, pg, strip (nth parts 0), strip (nth parts 1), strip (nth parts 2),
        strip (nth parts 3)⟩
  else none

/-- The line loop of `extract_transactions_with_opencode`: no records when the
output is empty or mentions the sentinel anywhere; otherwise per-line, in
order. -/
def extract_with_opencode (output sid pg : List Char) : List Txn :=
  if output.isEmpty || containsSub output noTransTok then []
  else (splitOnC '\n' output).filterMap (aiwLine sid pg)

/-- Deduplication key of `deduplicate_transactions` (batch_extract_all.py,
lines 91-103): all fields except statement_id and page. -/
def txnKey (t : Txn) : List Char × List Char × List Char × List Char :=
  (t.transaction_date, t.posting_date, t.description, t.amount)

/-- The loop of `deduplicate_transactions`, with the `seen` set as a list of
keys. -/
def dedupAux (seen : List (List Char × List Char × List Char × List Char)) :
    List Txn → List Txn
  | [] => []
  | t :: rest =>
    if txnKey t ∈ seen then dedupAux seen rest
    else t :: dedupAux (txnKey t :: seen) rest

/-- `deduplicate_transactions` of batch_extract_all.py. -/
def deduplicate_transactions (ts : List Txn) : List Txn :=
  dedupAux [] ts

/-- First-occurrence deduplication as the spec words it (section 4.3): keep a
record iff no earlier record has the same key; first occurrence wins, order of
survivors is order of first occurrence. -/
def dedupFirstOcc : List Txn → List Txn
  | [] => []
  | t :: rest => t :: dedupFirstOcc (rest.filter (fun u => decide (txnKey u ≠ txnKey t)))
termination_by l => l.length
decreasing_by
  simp only [List.length_cons]
  exact Nat.lt_succ_of_le (List.length_filter_le _ _)

/-- An aggregate bucket list: label, count, running float total, in insertion
order (Python dicts preserve insertion order). -/
abbrev Buckets := List (List Char × ℕ × Frc)

/-- One aggregation update: create the bucket on first sight (count 0, total
int 0), then `count += 1` and `total += amount` with float addition. -/
def bump (m : Buckets) (svc : List Char) (a : Frc) : Buckets :=
  match m with
  | [] => [(svc, 1, fladd ⟨0, 1⟩ a)]
  | (s, c, t) :: rest =>
    if s = svc then (s, c + 1, fladd t a) :: rest else (s, c, t) :: bump rest svc a

/-- Bucket lookup. -/
def bucketOf (m : Buckets) (svc : List Char) : Option (ℕ × Frc) :=
  match m with
  | [] => none
  | (s, c, t) :: rest => if s = svc then some (c, t) else bucketOf rest svc

/-- Count of a bucket, 0 when absent. -/
def countOf (m : Buckets) (svc : List Char) : ℕ :=
  match bucketOf m svc with
  | some (c, _) => c
  | none => 0

/-- Total of a bucket, float 0 when absent. -/
def totalOf (m : Buckets) (svc : List Char) : Frc :=
  match bucketOf m svc with
  | some (_, t) => t
  | none => ⟨0, 1⟩

/-- The aggregation loop of `generate_summary` (ai_workflow.py, lines
198-227): classify, `float(amount.replace(',',''))` (a parse failure raises —
modelled as `none`), update the service bucket. -/
def generate_summary_agg (m : Buckets) : List Txn → Option Buckets
  | [] => some m
  | r :: rest =>
    match parseF (stripCommas r.amount) with
    | none => none
    | some a => generate_summary_agg (bump m (generate_summary_service r.description) a) rest

/-- A record of the brain workflow: the aggregation loop of
`save_and_summarize` (ai_workflow_brain.py, lines 194-204) reads only the
`service` and `amount` fields. -/
structure STxn where
  service : List Char
  amount : List Char
deriving DecidableEq, Repr

/-- The aggregation loop of `save_and_summarize`: like `generate_summary` but
the float conversion sits in try/except, so an unparseable amount is skipped. -/
def save_summarize_agg (m : Buckets) : List STxn → Buckets
  | [] => m
  | t :: rest =>
    match parseF (stripCommas t.amount) with
    | none => save_summarize_agg m rest
    | some a => save_summarize_agg (bump m t.service a) rest

/-- Rows of the input attributed to a label by `generate_summary`. -/
def attributedG (rows : List Txn) (svc : List Char) : List Txn :=
  rows.filter (fun r => decide (generate_summary_service r.description = svc))

/-- Parsed float amounts of the rows attributed to a label. -/
def amountsG (rows : List Txn) (svc : List Char) : List Frc :=
  (attributedG rows svc).filterMap (fun r => parseF (stripCommas r.amount))

/-- Parsed float amounts of the brain records attributed to a label (records
whose amount fails to parse are skipped by the loop and contribute nothing). -/
def amountsB (ts : List STxn) (svc : List Char) : List Frc :=
  ts.filterMap (fun t => if t.service = svc then parseF (stripCommas t.amount) else none)

def allDigits (l : List Char) : Bool :=
  l.all Char.isDigit

/-- Day count of a month, with the Gregorian leap rule (what
`datetime.strptime` enforces). -/
def daysInMonth (m y : ℕ) : ℕ :=
  if m = 2 then (if y % 4 = 0 && (y % 100 ≠ 0 || y % 400 = 0) then 29 else 28)
  else if m = 4 || m = 6 || m = 9 || m = 11 then 30 else 31

/-- The strings the strptime directive `%d` accepts: one or two digits with
value 1..31, or a space followed by a nonzero digit. -/
def dayFieldOK (d : List Char) : Bool :=
  (allDigits d && decide (1 ≤ d.length) && decide (d.length ≤ 2) &&
    decide (1 ≤ digitsVal d) && decide (digitsVal d ≤ 31)) ||
  (match d with
   | [c1, c2] => c1 = ' ' && c2.isDigit && decide (c2 ≠ '0')
   | _ => false)

/-- The strings `%m` accepts: one or two digits with value 1..12. -/
def monthFieldOK (m : List Char) : Bool :=
  allDigits m && decide (1 ≤ m.length) && decide (m.length ≤ 2) &&
    decide (1 ≤ digitsVal m) && decide (digitsVal m ≤ 12)

/-- The year shortstring `ys` for which `"20" + ys` is accepted by `%Y`:
CPython strptime matches `%Y` against exactly four digits consuming the whole
rest of the string, so exactly two more digits are required after "20". -/
def yearFieldOK (ys : List Char) : Bool :=
  allDigits ys && decide (ys.length = 2)

/-- `parse_date` of format_for_sheets.py: split on `/` (the tuple unpacking
needs exactly three parts), prepend "20" to the year, and run
`datetime.strptime(..., "%d/%m/%Y")`, which also checks the day against the
month length.  Any failure gives `None`. -/
def parse_date (s : List Char) : Option (ℕ × ℕ × ℕ) :=
  match splitOnC '/' s with
  | [d, m, ys] =>
    if dayFieldOK d && monthFieldOK m && yearFieldOK ys then
      let dv := digitsVal (d.filter (fun c => decide (c ≠ ' ')))
      let mo := digitsVal m
      let yr := digitsVal ('2' :: '0' :: ys)
      if 1 ≤ dv && dv ≤ daysInMonth mo yr then some (dv, mo, yr) else none
    else none
  | _ => none

/-- The per-row decision of `format_for_google_sheets` (format_for_sheets.py,
lines 30-83): the float conversion runs outside any try (`none` = the whole
run crashes); a row is kept when it classifies as AI, its amount is positive,
and `parse_date` succeeds on the transaction date. -/
def sheets_keep_row (r : Txn) : Option Bool :=
  match parseF (stripCommas r.amount) with
  | none => none
  | some a =>
    some
      (match format_sheets_service r.description with
       | some _ => fpos a && (parse_date r.transaction_date).isSome
       | none => false)

/-- The row loop of `format_for_google_sheets`: which source rows survive into
the output (the final date sort permutes rows but does not change which are
kept, so membership is modelled without it). -/
def format_for_sheets_kept : List Txn → Option (List Txn)
  | [] => some []
  | r :: rest =>
    match sheets_keep_row r with
    | none => none
    | some b => (format_for_sheets_kept rest).map (fun ks => if b then r :: ks else ks)

/-- Continuation-passing regex acceptance combinators.  A matcher takes the
input and a continuation for the rest of the string; acceptance asks whether
some split works, which coincides with Python `re` acceptance (greedy and
non-greedy repetition only differ in captures, which C8 does not concern). -/
def epsC (s : List Char) (k : List Char → Bool) : Bool :=
  k s

/-- Match one character of a class, then continue. -/
def chrM (p : Char → Bool) : List Char → (List Char → Bool) → Bool
  | [], _ => false
  | c :: cs, k => p c && k cs

/-- One-or-more repetition of a character class (`\s+`, `.+`, `[\d,]+`). -/
def plusC (p : Char → Bool) : List Char → (List Char → Bool) → Bool
  | [], _ => false
  | c :: cs, k => p c && (k cs || plusC p cs k)

/-- Sequencing of matchers. -/
def seqC (A B : List Char → (List Char → Bool) → Bool)
    (s : List Char) (k : List Char → Bool) : Bool :=
  A s (fun r => B r k)

/-- Alternation of matchers. -/
def altC (A B : List Char → (List Char → Bool) → Bool)
    (s : List Char) (k : List Char → Bool) : Bool :=
  A s k || B s k

/-- Regex `\d{2}/\d{2}/\d{2,4}`: the year has two digits and then up to two
optional further digits. -/
def dateTokM : List Char → (List Char → Bool) → Bool :=
  seqC (chrM Char.isDigit) (seqC (chrM Char.isDigit) (seqC (chrM (· = '/'))
    (seqC (chrM Char.isDigit) (seqC (chrM Char.isDigit) (seqC (chrM (· = '/'))
      (seqC (chrM Char.isDigit) (seqC (chrM Char.isDigit)
        (altC epsC (seqC (chrM Char.isDigit) (altC epsC (chrM Char.isDigit)))))))))))

/-- Regex `-?[\d,]+\.\d{2}`: optional minus, digits or commas, a point, two
fraction digits. -/
def amountM : List Char → (List Char → Bool) → Bool :=
  seqC (altC (chrM (· = '-')) epsC)
    (seqC (plusC (fun c => c.isDigit || c = ','))
      (seqC (chrM (· = '.')) (seqC (chrM Char.isDigit) (chrM Char.isDigit))))

/-- The composite pattern of `parse_transactions` in extract_transactions.py
(line 36): date token, whitespace, date token, whitespace, non-greedy
description (`.+?` — one or more non-newline characters), whitespace, amount —
then the continuation. -/
def ocrLineMatch : List Char → (List Char → Bool) → Bool :=
  seqC dateTokM (seqC (plusC pyIsSpace) (seqC dateTokM (seqC (plusC pyIsSpace)
    (seqC (plusC (fun c => decide (c ≠ '\n'))) (seqC (plusC pyIsSpace) amountM)))))

/-- Acceptance of one OCR line by extract_transactions.py: `re.match` of the
composite pattern against the stripped line.  `re.match` anchors only at the
start, so any trailing characters are allowed. -/
def ocrAccepts (raw : List Char) : Bool :=
  ocrLineMatch (strip raw) (fun _ => true)

/-- Acceptance by the composite pattern read as the spec words it (section
4.1b): the amount sits at the very end of the line.  This definition follows
the spec's words and is compared against `ocrAccepts`. -/
def ocrAcceptsAnchored (raw : List Char) : Bool :=
  ocrLineMatch (strip raw) (fun r => r.isEmpty)

/-! ### Deduplication lemmas -/

theorem dedupFirstOcc_nil : dedupFirstOcc [] = [] := by
  simp [dedupFirstOcc]

theorem dedupFirstOcc_cons (t : Txn) (rest : List Txn) :
    dedupFirstOcc (t :: rest) =
      t :: dedupFirstOcc (rest.filter (fun u => decide (txnKey u ≠ txnKey t))) := by
  simp [dedupFirstOcc]

theorem dedupAux_eq_firstOcc (ts : List Txn) :
    ∀ seen, dedupAux seen ts = dedupFirstOcc (ts.filter (fun u => decide (txnKey u ∉ seen))) := by
  induction ts with
  | nil => intro seen; simp [dedupAux, dedupFirstOcc_nil]
  | cons t rest ih =>
    intro seen
    by_cases h : txnKey t ∈ seen
    · simp only [dedupAux, if_pos h, List.filter_cons]
      have : decide (txnKey t ∉ seen) = false := by simp [h]
      rw [this]
      simp only [Bool.false_eq_true, if_neg (by simp : ¬False)]
      exact ih seen
    · simp only [dedupAux, if_neg h, List.filter_cons]
      have hk : decide (txnKey t ∉ seen) = true := by simp [h]
      rw [hk]
      simp only [if_pos trivial]
      rw [dedupFirstOcc_cons, List.filter_filter, ih (txnKey t :: seen)]
      congr 2
      apply List.filter_congr
      intro u _
      by_cases h1 : txnKey u = txnKey t <;> by_cases h2 : txnKey u ∈ seen <;>
        simp [h1, h2]

theorem dedupFirstOcc_filter_comm :
    ∀ n (ts : List Txn), ts.length ≤ n → ∀ k,
      dedupFirstOcc (ts.filter (fun u => decide (txnKey u ≠ k))) =
        (dedupFirstOcc ts).filter (fun u => decide (txnKey u ≠ k)) := by
  intro n
  induction n with
  | zero =>
    intro ts hts k
    have : ts = [] := List.eq_nil_of_length_eq_zero (Nat.le_zero.mp hts)
    subst this
    simp [dedupFirstOcc_nil]
  | succ n ih =>
    intro ts hts k
    match ts with
    | [] => simp [dedupFirstOcc_nil]
    | t :: rest =>
      have hr : rest.length ≤ n := Nat.le_of_succ_le_succ hts
      by_cases h : txnKey t = k
      · have hdec : decide (txnKey t ≠ k) = false := by simp [h]
        rw [List.filter_cons, hdec]
        simp only [Bool.false_eq_true, if_neg (by simp : ¬False)]
        rw [dedupFirstOcc_cons, List.filter_cons, hdec]
        simp only [Bool.false_eq_true, if_neg (by simp : ¬False)]
        rw [← ih (rest.filter (fun u => decide (txnKey u ≠ txnKey t)))
            (le_trans (List.length_filter_le _ _) hr) k]
        rw [h]
        congr 1
        rw [List.filter_filter]
        apply List.filter_congr
        intro u _
        by_cases h1 : txnKey u = k <;> simp [h1]
      · have hdec : decide (txnKey t ≠ k) = true := by simp [h]
        rw [List.filter_cons, hdec]
        simp only [if_pos trivial]
        rw [dedupFirstOcc_cons, dedupFirstOcc_cons, List.filter_cons, hdec]
        simp only [if_pos trivial]
        congr 1
        rw [← ih (rest.filter (fun u => decide (txnKey u ≠ txnKey t)))
            (le_trans (List.length_filter_le _ _) hr) k]
        rw [List.filter_filter, List.filter_filter]
        apply congrArg
        apply List.filter_congr
        intro u _
        by_cases h1 : txnKey u = k <;> by_cases h2 : txnKey u = txnKey t <;>
          simp [h1, h2]

theorem dedupFirstOcc_idem :
    ∀ n (ts : List Txn), ts.length ≤ n → dedupFirstOcc (dedupFirstOcc ts) = dedupFirstOcc ts := by
  intro n
  induction n with
  | zero =>
    intro ts hts
    have : ts = [] := List.eq_nil_of_length_eq_zero (Nat.le_zero.mp hts)
    subst this
    simp [dedupFirstOcc_nil]
  | succ n ih =>
    intro ts hts
    match ts with
    | [] => simp [dedupFirstOcc_nil]
    | t :: rest =>
      have hr : rest.length ≤ n := Nat.le_of_succ_le_succ hts
      rw [dedupFirstOcc_cons, dedupFirstOcc_cons]
      congr 1
      rw [← dedupFirstOcc_filter_comm n (rest.filter (fun u => decide (txnKey u ≠ txnKey t)))
          (le_trans (List.length_filter_le _ _) hr) (txnKey t)]
      rw [List.filter_filter]
      have : (fun u => decide (txnKey u ≠ txnKey t) && decide (txnKey u ≠ txnKey t)) =
          (fun u => decide (txnKey u ≠ txnKey t)) := by
        funext u; by_cases h : txnKey u = txnKey t <;> simp [h]
      rw [this]
      exact ih _ (le_trans (List.length_filter_le _ _) hr)

theorem dedup_eq_firstOcc (ts : List Txn) : deduplicate_transactions ts = dedupFirstOcc ts := by
  rw [deduplicate_transactions, dedupAux_eq_firstOcc]
  congr 1
  have : (fun u => decide (txnKey u ∉ ([] : List _))) = (fun _ : Txn => true) := by
    funext u; simp
  rw [this, List.filter_true]

theorem dedupFirstOcc_length_le (ts : List Txn) : (dedupFirstOcc ts).length ≤ ts.length := by
  rw [← dedup_eq_firstOcc, deduplicate_transactions]
  generalize ([] : List (List Char × List Char × List Char × List Char)) = seen
  induction ts generalizing seen with
  | nil => simp [dedupAux]
  | cons t rest ih =>
    simp only [dedupAux]
    split
    · exact le_trans (ih seen) (Nat.le_succ _)
    · simpa using ih (txnKey t :: seen)

/-- C5: the Deduplicator removes exactly the records whose key
(transaction_date, posting_date, description, amount — statement_id and page
excluded) equals the key of an earlier record: its output is first-occurrence
deduplication, keeping the first record of each key unchanged, survivors in
order of first occurrence. -/
theorem c5_deduplicator_first_occurrence (ts : List Txn) :
    deduplicate_transactions ts = dedupFirstOcc ts :=
  dedup_eq_firstOcc ts

/-- C9: deduplication is idempotent — applying the Deduplicator to its own
output returns that output unchanged. -/
theorem c9_deduplicate_idempotent (ts : List Txn) :
    deduplicate_transactions (deduplicate_transactions ts) = deduplicate_transactions ts := by
  rw [dedup_eq_firstOcc ts, dedup_eq_firstOcc (dedupFirstOcc ts)]
  exact dedupFirstOcc_idem ts.length ts le_rfl

/-- C10: any extractor output containing the substring "ERROR" anywhere makes
`parse_transactions` of batch_extract_all.py return no records at all, even
when individual lines are well-formed transactions. -/
theorem c10_error_guard_discards_page (output sid pg : List Char)
    (h : containsSub output errTok = true) :
    parse_transactions output sid pg = [] := by
  rw [parse_transactions, if_pos]
  simp [h]

theorem c10_error_guard_discards_page_witness :
    containsSub "19/05/25|20/05/25|ERRORLESS SHOP|100.00".data errTok = true ∧
    parse_transactions "19/05/25|20/05/25|ERRORLESS SHOP|100.00".data "S".data "1".data = [] ∧
    parseLine "S".data "1".data "19/05/25|20/05/25|ERRORLESS SHOP|100.00".data =
      some ⟨"S".data, "1".data, "19/05/25".data, "20/05/25".data, "ERRORLESS SHOP".data,
        "100.00".data⟩ :=
  ⟨by decide, c10_error_guard_discards_page _ _ _ (by decide), by decide⟩

/-! ### C1: vendor classifier priority order -/

/-- C1 counterexample: the spec's priority table puts STRIPE+Z.AI (rule 7)
before GOOGLE+CLOUD (rule 8), but the classifier of format_for_sheets.py tests
GOOGLE+CLOUD second, so a description containing all four signatures resolves
to "Google Cloud" there, not "Z.AI Service". -/
theorem c1_counterexample :
    format_sheets_service "STRIPE PAYMENT Z.AI GOOGLE CLOUD".data = some lbGoogleCloud ∧
    specTableService "STRIPE PAYMENT Z.AI GOOGLE CLOUD".data = some lbZAI ∧
    lbGoogleCloud ≠ lbZAI := by
  refine ⟨by decide, by decide, by decide⟩

/-- C1 amended: the classifier of `generate_summary` (ai_workflow.py) does
follow the spec's table in its exact priority order (falling back to "Other AI
Service"), and a description containing "STRIPE", "Z.AI" and "GOOGLE" (but not
"CLOUD") resolves to "Z.AI Service" under both source classifiers; only the
format_for_sheets.py classifier deviates, testing GOOGLE+CLOUD second. -/
theorem c1_amended_generate_summary_follows_table :
    (∀ desc : List Char,
      generate_summary_service desc = (specTableService desc).getD lbOther) ∧
    generate_summary_service "STRIPE Z.AI GOOGLE".data = lbZAI ∧
    format_sheets_service "STRIPE Z.AI GOOGLE".data = some lbZAI := by
  refine ⟨?_, by decide, by decide⟩
  intro desc
  simp only [generate_summary_service, specTableService]
  repeat' split <;> simp_all

/-! ### Sign and value bridges for parsed floats -/

theorem mkFl_den_pos (m : ℕ) (e : ℤ) : 0 < (mkFl m e).den := by
  rw [mkFl]
  split
  · exact Nat.one_pos
  · exact pow_pos (by norm_num) _

theorem flPosCore_den_pos (a b : ℕ) : 0 < (flPosCore a b).den := by
  simp only [flPosCore]
  exact mkFl_den_pos _ _

theorem fl_den_pos (f : Frc) : 0 < (fl f).den := by
  rw [fl]
  split
  · exact Nat.one_pos
  · split
    · exact flPosCore_den_pos _ _
    · exact flPosCore_den_pos _ _

theorem parseF_den_pos {s : List Char} {f : Frc} (h : parseF s = some f) : 0 < f.den := by
  rw [parseF, Option.map_eq_some'] at h
  obtain ⟨x, _, rfl⟩ := h
  exact fl_den_pos x

theorem fpos_iff_val_pos {f : Frc} (h : 0 < f.den) : fpos f = true ↔ 0 < Frc.val f := by
  have hd : (0 : ℚ) < (f.den : ℚ) := by exact_mod_cast h
  rw [fpos, decide_eq_true_iff, Frc.val]
  constructor
  · intro hn
    exact div_pos (by exact_mod_cast hn) hd
  · intro hv
    by_contra hn
    push_neg at hn
    have : (f.num : ℚ) / (f.den : ℚ) ≤ 0 :=
      div_nonpos_iff.mpr (Or.inr ⟨by exact_mod_cast hn, le_of_lt hd⟩)
    exact absurd hv (not_lt.mpr this)

/-! ### C4: mode-A positive-amount filter -/

theorem keepAI_iff (r : Txn) :
    keepAI r = true ↔
      is_ai r.description = true ∧
        ∃ f, parseF (stripCommas r.amount) = some f ∧ 0 < Frc.val f := by
  rw [keepAI]
  cases hp : parseF (stripCommas r.amount) with
  | none => simp [hp]
  | some f =>
    simp only [hp, Bool.and_eq_true]
    constructor
    · rintro ⟨ha, hf⟩
      exact ⟨ha, f, rfl, (fpos_iff_val_pos (parseF_den_pos hp)).mp hf⟩
    · rintro ⟨ha, g, hg, hgv⟩
      obtain rfl : f = g := by injection hg
      exact ⟨ha, (fpos_iff_val_pos (parseF_den_pos hp)).mpr hgv⟩

theorem sheets_keep_row_iff (r : Txn) :
    sheets_keep_row r = some true ↔
      (∃ f, parseF (stripCommas r.amount) = some f ∧ 0 < Frc.val f) ∧
        (format_sheets_service r.description).isSome = true ∧
        (parse_date r.transaction_date).isSome = true := by
  rw [sheets_keep_row]
  cases hp : parseF (stripCommas r.amount) with
  | none => simp
  | some a =>
    cases hs : format_sheets_service r.description with
    | none => simp
    | some svc =>
      simp only [Option.some_inj, Bool.and_eq_true, Option.isSome_some]
      constructor
      · rintro ⟨hf, hd⟩
        exact ⟨⟨a, rfl, (fpos_iff_val_pos (parseF_den_pos hp)).mp hf⟩, trivial, hd⟩
      · rintro ⟨⟨g, hg, hgv⟩, _, hd⟩
        obtain rfl : a = g := hg
        exact ⟨(fpos_iff_val_pos (parseF_den_pos hp)).mpr hgv, hd⟩

theorem format_kept_mem (rows : List Txn) :
    ∀ kept, format_for_sheets_kept rows = some kept →
      ∀ r, r ∈ kept ↔ r ∈ rows ∧ sheets_keep_row r = some true := by
  induction rows with
  | nil =>
    intro kept h r
    rw [format_for_sheets_kept] at h
    obtain rfl : ([] : List Txn) = kept := by injection h
    simp
  | cons x rest ih =>
    intro kept h r
    rw [format_for_sheets_kept] at h
    cases hx : sheets_keep_row x with
    | none => rw [hx] at h; exact absurd h (by simp)
    | some b =>
      rw [hx, Option.map_eq_some'] at h
      obtain ⟨ks, hks, rfl⟩ := h
      cases b with
      | true =>
        simp only [if_pos trivial, List.mem_cons]
        constructor
        · rintro (rfl | hr)
          · exact ⟨Or.inl rfl, hx⟩
          · obtain ⟨h1, h2⟩ := (ih ks hks r).mp hr
            exact ⟨Or.inr h1, h2⟩
        · rintro ⟨rfl | h1, h2⟩
          · exact Or.inl rfl
          · exact Or.inr ((ih ks hks r).mpr ⟨h1, h2⟩)
      | false =>
        simp only [Bool.false_eq_true, if_neg (by simp : ¬False)]
        rw [ih ks hks r]
        simp only [List.mem_cons]
        constructor
        · rintro ⟨h1, h2⟩
          exact ⟨Or.inr h1, h2⟩
        · rintro ⟨rfl | h1, h2⟩
          · rw [hx] at h2
            exact absurd h2 (by simp)
          · exact ⟨h1, h2⟩

/-- C4 counterexample: a record that classifies as AI with a positive parsed
amount is nevertheless excluded by the mode-A pipeline of
format_for_sheets.py, because its transaction date `19/05/25/25` (accepted
upstream — the date regex permits trailing characters) fails `parse_date`. -/
theorem c4_counterexample :
    format_sheets_service "ANTHROPIC".data = some lbAnthropic ∧
    parseF (stripCommas "100.00".data) = some ⟨7036874417766400, 70368744177664⟩ ∧
    (0 : ℚ) < Frc.val ⟨7036874417766400, 70368744177664⟩ ∧
    format_for_sheets_kept
      [⟨"S".data, "1".data, "19/05/25/25".data, "19/05/25".data, "ANTHROPIC".data,
        "100.00".data⟩] = some [] := by
  refine ⟨by decide, by decide, ?_, by decide⟩
  rw [Frc.val]
  norm_num

/-- C4 amended: in `filter_ai_transactions` (ai_workflow.py) a record is kept
iff it matches an AI keyword and its parsed amount is strictly positive — so
the claim holds there; in `format_for_google_sheets` (format_for_sheets.py) a
classified record is kept iff its parsed amount is strictly positive AND its
transaction date parses as a valid calendar date; in both, the Payment-KTB
line with amount -8,851.33 is excluded. -/
theorem c4_amended_mode_a_filter :
    (∀ (rows : List Txn) (r : Txn),
      r ∈ filter_ai_transactions rows ↔
        r ∈ rows ∧ is_ai r.description = true ∧
          ∃ f, parseF (stripCommas r.amount) = some f ∧ 0 < Frc.val f) ∧
    (∀ (rows kept : List Txn), format_for_sheets_kept rows = some kept →
      ∀ r, r ∈ kept ↔
        r ∈ rows ∧ (∃ f, parseF (stripCommas r.amount) = some f ∧ 0 < Frc.val f) ∧
          (format_sheets_service r.description).isSome = true ∧
          (parse_date r.transaction_date).isSome = true) := by
  constructor
  · intro rows r
    rw [filter_ai_transactions, List.mem_filter, keepAI_iff]
  · intro rows kept h r
    rw [format_kept_mem rows kept h r, sheets_keep_row_iff]

theorem c4_amended_mode_a_filter_witness :
    (⟨"S".data, "1".data, "07/01/25".data, "07/01/25".data, "Payment-KTB Internet".data,
        "-8,851.33".data⟩ : Txn) ∉
      filter_ai_transactions
        [⟨"S".data, "1".data, "07/01/25".data, "07/01/25".data, "Payment-KTB Internet".data,
          "-8,851.33".data⟩] ∧
    (⟨"S".data, "1".data, "19/05/25".data, "20/05/25".data,
        "ANTHROPIC ANTHROPIC.COMUS USD 5.35".data, "182.70".data⟩ : Txn) ∈
      filter_ai_transactions
        [⟨"S".data, "1".data, "19/05/25".data, "20/05/25".data,
          "ANTHROPIC ANTHROPIC.COMUS USD 5.35".data, "182.70".data⟩] ∧
    (⟨"S".data, "1".data, "19/05/25".data, "20/05/25".data,
        "ANTHROPIC ANTHROPIC.COMUS USD 5.35".data, "182.70".data⟩ : Txn) ∈
      [(⟨"S".data, "1".data, "19/05/25".data, "20/05/25".data,
        "ANTHROPIC ANTHROPIC.COMUS USD 5.35".data, "182.70".data⟩ : Txn)] := by
  have hval : (0 : ℚ) < Frc.val ⟨6428184780629606, 35184372088832⟩ := by
    rw [Frc.val]; norm_num
  refine ⟨?_, ?_, ?_⟩
  · intro hmem
    have h := (c4_amended_mode_a_filter.1 _ _).mp hmem
    have hai : is_ai ("Payment-KTB Internet".data) = true := h.2.1
    exact absurd hai (by decide)
  · exact (c4_amended_mode_a_filter.1 _ _).mpr
      ⟨by decide, by decide, ⟨6428184780629606, 35184372088832⟩, by decide, hval⟩
  · exact (c4_amended_mode_a_filter.2
      [⟨"S".data, "1".data, "19/05/25".data, "20/05/25".data,
        "ANTHROPIC ANTHROPIC.COMUS USD 5.35".data, "182.70".data⟩]
      [⟨"S".data, "1".data, "19/05/25".data, "20/05/25".data,
        "ANTHROPIC ANTHROPIC.COMUS USD 5.35".data, "182.70".data⟩]
      (by decide) _).mpr
      ⟨by decide, ⟨⟨6428184780629606, 35184372088832⟩, by decide, hval⟩, by decide, by decide⟩

/-! ### C6 / C7: aggregation -/

theorem bucketOf_bump_same (m : Buckets) (svc : List Char) (a : Frc) :
    bucketOf (bump m svc a) svc = some (countOf m svc + 1, fladd (totalOf m svc) a) := by
  induction m with
  | nil => simp [bump, bucketOf, countOf, totalOf]
  | cons e rest ih =>
    obtain ⟨s, c, t⟩ := e
    by_cases h : s = svc
    · subst h
      simp [bump, bucketOf, countOf, totalOf]
    · have hb : bump ((s, c, t) :: rest) svc a = (s, c, t) :: bump rest svc a := by
        simp [bump, h]
      have hbo : ∀ l : Buckets, bucketOf ((s, c, t) :: l) svc = bucketOf l svc := by
        intro l; simp [bucketOf, h]
      have hc : countOf ((s, c, t) :: rest) svc = countOf rest svc := by
        rw [countOf, hbo, countOf]
      have ht : totalOf ((s, c, t) :: rest) svc = totalOf rest svc := by
        rw [totalOf, hbo, totalOf]
      rw [hb, hbo, ih, hc, ht]

theorem bucketOf_bump_ne (m : Buckets) (svc a s) (h : s ≠ svc) :
    bucketOf (bump m svc a) s = bucketOf m s := by
  induction m with
  | nil =>
    simp only [bump, bucketOf]
    rw [if_neg (fun hc : svc = s => h hc.symm)]
  | cons e rest ih =>
    obtain ⟨s1, c, t⟩ := e
    by_cases h1 : s1 = svc
    · subst h1
      simp only [bump, if_pos rfl, bucketOf]
      rw [if_neg (fun hc : s1 = s => h hc.symm), if_neg (fun hc : s1 = s => h hc.symm)]
    · have hb : bump ((s1, c, t) :: rest) svc a = (s1, c, t) :: bump rest svc a := by
        simp [bump, h1]
      rw [hb]
      simp only [bucketOf]
      by_cases h2 : s1 = s
      · rw [if_pos h2, if_pos h2]
      · rw [if_neg h2, if_neg h2, ih]

theorem countOf_bump_same (m svc a) :
    countOf (bump m svc a) svc = countOf m svc + 1 := by
  rw [countOf, bucketOf_bump_same]

theorem totalOf_bump_same (m svc a) :
    totalOf (bump m svc a) svc = fladd (totalOf m svc) a := by
  rw [totalOf, bucketOf_bump_same]

theorem countOf_bump_ne (m svc a s) (h : s ≠ svc) :
    countOf (bump m svc a) s = countOf m s := by
  rw [countOf, bucketOf_bump_ne m svc a s h, countOf]

theorem totalOf_bump_ne (m svc a s) (h : s ≠ svc) :
    totalOf (bump m svc a) s = totalOf m s := by
  rw [totalOf, bucketOf_bump_ne m svc a s h, totalOf]

theorem gsagg_chara :
    ∀ (rows : List Txn) (m m' : Buckets), generate_summary_agg m rows = some m' →
      ∀ svc, countOf m' svc = countOf m svc + (attributedG rows svc).length ∧
        totalOf m' svc = List.foldl fladd (totalOf m svc) (amountsG rows svc) := by
  intro rows
  induction rows with
  | nil =>
    intro m m' h svc
    rw [generate_summary_agg] at h
    obtain rfl : m = m' := by injection h
    simp [attributedG, amountsG]
  | cons r rest ih =>
    intro m m' h svc
    cases hp : parseF (stripCommas r.amount) with
    | none =>
      rw [generate_summary_agg] at h
      simp only [hp] at h
      exact absurd h (by simp)
    | some a =>
      rw [generate_summary_agg] at h
      simp only [hp] at h
      have ihh := ih (bump m (generate_summary_service r.description) a) m' h svc
      by_cases hsv : generate_summary_service r.description = svc
      · have hatt : attributedG (r :: rest) svc = r :: attributedG rest svc := by
          simp [attributedG, List.filter, hsv]
        have hams : amountsG (r :: rest) svc = a :: amountsG rest svc := by
          rw [amountsG, hatt, List.filterMap_cons, hp, amountsG]
        rw [hatt, hams]
        subst hsv
        rw [countOf_bump_same, totalOf_bump_same] at ihh
        refine ⟨?_, ?_⟩
        · rw [ihh.1, List.length_cons]
          ring
        · rw [ihh.2, List.foldl_cons]
      · have hatt : attributedG (r :: rest) svc = attributedG rest svc := by
          simp [attributedG, List.filter, hsv]
        have hams : amountsG (r :: rest) svc = amountsG rest svc := by
          rw [amountsG, hatt, amountsG]
        rw [hatt, hams]
        rw [countOf_bump_ne _ _ _ _ (fun hc => hsv hc.symm),
          totalOf_bump_ne _ _ _ _ (fun hc => hsv hc.symm)] at ihh
        exact ihh

theorem ssagg_chara :
    ∀ (ts : List STxn) (m : Buckets) (svc : List Char),
      countOf (save_summarize_agg m ts) svc = countOf m svc + (amountsB ts svc).length ∧
      totalOf (save_summarize_agg m ts) svc =
        List.foldl fladd (totalOf m svc) (amountsB ts svc) := by
  intro ts
  induction ts with
  | nil => intro m svc; simp [save_summarize_agg, amountsB]
  | cons t rest ih =>
    intro m svc
    cases hp : parseF (stripCommas t.amount) with
    | none =>
      have hrec : save_summarize_agg m (t :: rest) = save_summarize_agg m rest := by
        simp only [save_summarize_agg, hp]
      have hams : amountsB (t :: rest) svc = amountsB rest svc := by
        rw [amountsB, List.filterMap_cons]
        by_cases h : t.service = svc
        · rw [if_pos h, hp, amountsB]
        · rw [if_neg h, amountsB]
      rw [hrec, hams]
      exact ih m svc
    | some a =>
      have hrec : save_summarize_agg m (t :: rest) = save_summarize_agg (bump m t.service a) rest := by
        simp only [save_summarize_agg, hp]
      by_cases hsv : t.service = svc
      · subst hsv
        have hams : amountsB (t :: rest) t.service = a :: amountsB rest t.service := by
          rw [amountsB, List.filterMap_cons, if_pos rfl, hp, amountsB]
        rw [hrec, hams]
        have ihh := ih (bump m t.service a) t.service
        rw [countOf_bump_same, totalOf_bump_same] at ihh
        refine ⟨?_, ?_⟩
        · rw [ihh.1, List.length_cons]
          ring
        · rw [ihh.2, List.foldl_cons]
      · have hams : amountsB (t :: rest) svc = amountsB rest svc := by
          rw [amountsB, List.filterMap_cons, if_neg hsv, amountsB]
        rw [hrec, hams]
        have ihh := ih (bump m t.service a) svc
        rw [countOf_bump_ne _ _ _ _ (fun hc => hsv hc.symm),
          totalOf_bump_ne _ _ _ _ (fun hc => hsv hc.symm)] at ihh
        exact ihh

theorem attributedG_take_le :
    ∀ (rows : List Txn) (k : ℕ) (svc : List Char),
      (attributedG (rows.take k) svc).length ≤ (attributedG (rows.take (k + 1)) svc).length := by
  intro rows
  induction rows with
  | nil => intro k svc; simp
  | cons r rest ih =>
    intro k svc
    cases k with
    | zero => simp [attributedG]
    | succ k =>
      rw [List.take_succ_cons, List.take_succ_cons]
      by_cases h : generate_summary_service r.description = svc
      · have h1 : ∀ l, attributedG (r :: l) svc = r :: attributedG l svc := by
          intro l; simp [attributedG, List.filter, h]
        rw [h1, h1, List.length_cons, List.length_cons]
        exact Nat.succ_le_succ (ih k svc)
      · have h1 : ∀ l, attributedG (r :: l) svc = attributedG l svc := by
          intro l; simp [attributedG, List.filter, h]
        rw [h1, h1]
        exact ih k svc

theorem countOf_nil (svc : List Char) : countOf [] svc = 0 := by
  simp [countOf, bucketOf]

theorem totalOf_nil (svc : List Char) : totalOf [] svc = ⟨0, 1⟩ := by
  simp [totalOf, bucketOf]

/-- C6 counterexample: bucket totals are NOT monotonic non-decreasing.  In the
brain workflow (save_and_summarize, which applies no positive-amount filter) a
second record with a negative amount lowers the bucket's total: after
[5.00] the "X" total is 5, after [5.00, -3.00] it is 2 < 5. -/
theorem c6_counterexample :
    totalOf (save_summarize_agg [] [⟨"X".data, "5.00".data⟩]) "X".data =
      ⟨5629499534213120, 1125899906842624⟩ ∧
    totalOf (save_summarize_agg []
        [⟨"X".data, "5.00".data⟩, ⟨"X".data, "-3.00".data⟩]) "X".data =
      ⟨4503599627370496, 2251799813685248⟩ ∧
    Frc.val ⟨4503599627370496, 2251799813685248⟩ <
      Frc.val ⟨5629499534213120, 1125899906842624⟩ := by
  refine ⟨by decide, by decide, ?_⟩
  rw [Frc.val, Frc.val]
  norm_num

/-- C6 amended: after every update, each bucket's count equals the number of
records attributed to its label and its total equals the float (binary64) fold
of their parsed amounts — in `generate_summary` (where a parse failure raises,
hence the `some` hypothesis) and in `save_and_summarize` (where unparseable
amounts are skipped); counts are monotonic non-decreasing as records are
added.  Totals are not monotonic in general (negative amounts occur on the
unfiltered brain path — see the counterexample). -/
theorem c6_amended_aggregator_invariants :
    (∀ (rows : List Txn) (m : Buckets), generate_summary_agg [] rows = some m →
      ∀ svc, countOf m svc = (attributedG rows svc).length ∧
        totalOf m svc = List.foldl fladd ⟨0, 1⟩ (amountsG rows svc)) ∧
    (∀ (ts : List STxn) (svc : List Char),
      countOf (save_summarize_agg [] ts) svc = (amountsB ts svc).length ∧
      totalOf (save_summarize_agg [] ts) svc = List.foldl fladd ⟨0, 1⟩ (amountsB ts svc)) ∧
    (∀ (rows : List Txn) (k : ℕ) (mk mk1 : Buckets) (svc : List Char),
      generate_summary_agg [] (rows.take k) = some mk →
      generate_summary_agg [] (rows.take (k + 1)) = some mk1 →
      countOf mk svc ≤ countOf mk1 svc) := by
  refine ⟨?_, ?_, ?_⟩
  · intro rows m h svc
    have := gsagg_chara rows [] m h svc
    rwa [countOf_nil, totalOf_nil, Nat.zero_add] at this
  · intro ts svc
    have := ssagg_chara ts [] svc
    rwa [countOf_nil, totalOf_nil, Nat.zero_add] at this
  · intro rows k mk mk1 svc h1 h2
    have e1 := (gsagg_chara (rows.take k) [] mk h1 svc).1
    have e2 := (gsagg_chara (rows.take (k + 1)) [] mk1 h2 svc).1
    rw [countOf_nil, Nat.zero_add] at e1 e2
    rw [e1, e2]
    exact attributedG_take_le rows k svc

theorem c6_amended_aggregator_invariants_witness :
    (countOf [(lbAnthropic, 2, (⟨5404319552844596, 18014398509481984⟩ : Frc))] lbAnthropic =
      (attributedG
        [⟨"S".data, "1".data, "a".data, "b".data, "ANTHROPIC".data, "0.10".data⟩,
         ⟨"S".data, "1".data, "a".data, "b".data, "ANTHROPIC".data, "0.20".data⟩]
        lbAnthropic).length ∧
      totalOf [(lbAnthropic, 2, (⟨5404319552844596, 18014398509481984⟩ : Frc))] lbAnthropic =
        List.foldl fladd ⟨0, 1⟩
          (amountsG
            [⟨"S".data, "1".data, "a".data, "b".data, "ANTHROPIC".data, "0.10".data⟩,
             ⟨"S".data, "1".data, "a".data, "b".data, "ANTHROPIC".data, "0.20".data⟩]
            lbAnthropic)) ∧
    countOf ([] : Buckets) lbAnthropic ≤
      countOf [(lbAnthropic, 1, (⟨7205759403792794, 72057594037927936⟩ : Frc))] lbAnthropic := by
  constructor
  · exact c6_amended_aggregator_invariants.1
      [⟨"S".data, "1".data, "a".data, "b".data, "ANTHROPIC".data, "0.10".data⟩,
       ⟨"S".data, "1".data, "a".data, "b".data, "ANTHROPIC".data, "0.20".data⟩]
      [(lbAnthropic, 2, ⟨5404319552844596, 18014398509481984⟩)] (by decide) lbAnthropic
  · exact c6_amended_aggregator_invariants.2.2
      [⟨"S".data, "1".data, "a".data, "b".data, "ANTHROPIC".data, "0.10".data⟩,
       ⟨"S".data, "1".data, "a".data, "b".data, "ANTHROPIC".data, "0.20".data⟩]
      0 [] [(lbAnthropic, 1, ⟨7205759403792794, 72057594037927936⟩)] lbAnthropic
      (by decide) (by decide)

/-- C7 counterexample: the accumulated total is NOT the exact rational sum of
the two-decimal source amounts.  For amounts "0.10" and "0.20" the exact
decimal values sum to 3/10, but `generate_summary` accumulates Python floats
and ends at 5404319552844596/2^54 = 0.30000000000000004 ≠ 3/10. -/
theorem c7_counterexample :
    generate_summary_agg []
      [⟨"S".data, "1".data, "a".data, "b".data, "ANTHROPIC".data, "0.10".data⟩,
       ⟨"S".data, "1".data, "a".data, "b".data, "ANTHROPIC".data, "0.20".data⟩] =
      some [(lbAnthropic, 2, ⟨5404319552844596, 18014398509481984⟩)] ∧
    pyFloatDec "0.10".data = some ⟨10, 100⟩ ∧
    pyFloatDec "0.20".data = some ⟨20, 100⟩ ∧
    Frc.val ⟨10, 100⟩ + Frc.val ⟨20, 100⟩ = 3 / 10 ∧
    Frc.val ⟨5404319552844596, 18014398509481984⟩ ≠ 3 / 10 := by
  refine ⟨by decide, by decide, by decide, ?_, ?_⟩
  · rw [Frc.val, Frc.val]
    norm_num
  · rw [Frc.val]
    norm_num

/-- C7 amended: the Aggregator accumulates in IEEE-754 binary64 (Python
float), not in exact decimal: each parsed amount is the correctly rounded
binary64 value of its decimal string, and each bucket total is the fold of
rounded float additions over the attributed amounts, so the accumulated total
can differ from the exact rational sum of the source amounts. -/
theorem c7_amended_float_accumulation :
    (∀ (s : List Char) (f : Frc), pyFloatDec s = some f → parseF s = some (fl f)) ∧
    (∀ (rows : List Txn) (m m' : Buckets), generate_summary_agg m rows = some m' →
      ∀ svc, totalOf m' svc = List.foldl fladd (totalOf m svc) (amountsG rows svc)) := by
  constructor
  · intro s f h
    rw [parseF, h, Option.map_some']
  · intro rows m m' h svc
    exact (gsagg_chara rows m m' h svc).2

theorem c7_amended_float_accumulation_witness :
    parseF "0.10".data = some (fl ⟨10, 100⟩) ∧
    totalOf [(lbAnthropic, 2, (⟨5404319552844596, 18014398509481984⟩ : Frc))] lbAnthropic =
      List.foldl fladd (totalOf [] lbAnthropic)
        (amountsG
          [⟨"S".data, "1".data, "a".data, "b".data, "ANTHROPIC".data, "0.10".data⟩,
           ⟨"S".data, "1".data, "a".data, "b".data, "ANTHROPIC".data, "0.20".data⟩]
          lbAnthropic) := by
  constructor
  · exact c7_amended_float_accumulation.1 "0.10".data ⟨10, 100⟩ (by decide)
  · exact c7_amended_float_accumulation.2
      [⟨"S".data, "1".data, "a".data, "b".data, "ANTHROPIC".data, "0.10".data⟩,
       ⟨"S".data, "1".data, "a".data, "b".data, "ANTHROPIC".data, "0.20".data⟩]
      [] [(lbAnthropic, 2, ⟨5404319552844596, 18014398509481984⟩)] (by decide) lbAnthropic

/-! ### Strip and split lemmas for the line parser -/

theorem stripLeft_cons_ws {c : Char} (h : pyIsSpace c = true) (s : List Char) :
    stripLeft (c :: s) = stripLeft s := by
  simp [stripLeft, h]

theorem stripLeft_cons_nws {c : Char} (h : pyIsSpace c = false) (s : List Char) :
    stripLeft (c :: s) = c :: s := by
  simp [stripLeft, h]

theorem stripLeft_append_ws {w : List Char} (hw : ∀ c ∈ w, pyIsSpace c = true)
    (s : List Char) : stripLeft (w ++ s) = stripLeft s := by
  induction w with
  | nil => rfl
  | cons c cs ih =>
    rw [List.cons_append, stripLeft_cons_ws (hw c (by simp))]
    exact ih (fun d hd => hw d (by simp [hd]))

theorem stripLeft_length_le (s : List Char) : (stripLeft s).length ≤ s.length := by
  induction s with
  | nil => exact le_rfl
  | cons c cs ih =>
    by_cases h : pyIsSpace c = true
    · rw [stripLeft_cons_ws h]
      exact le_trans ih (Nat.le_succ _)
    · rw [stripLeft_cons_nws (by simpa using h)]

theorem exists_stripLeft_decomp (s : List Char) :
    ∃ w, (∀ c ∈ w, pyIsSpace c = true) ∧ s = w ++ stripLeft s := by
  induction s with
  | nil => exact ⟨[], by simp, rfl⟩
  | cons c cs ih =>
    by_cases h : pyIsSpace c = true
    · obtain ⟨w, hw, he⟩ := ih
      refine ⟨c :: w, ?_, ?_⟩
      · intro d hd
        rcases List.mem_cons.mp hd with rfl | hd
        · exact h
        · exact hw d hd
      · rw [stripLeft_cons_ws h, List.cons_append, ← he]
    · exact ⟨[], by simp, by rw [stripLeft_cons_nws (by simpa using h)]; rfl⟩

theorem stripLeft_head_nws : ∀ {s c t}, stripLeft s = c :: t → pyIsSpace c = false := by
  intro s
  induction s with
  | nil => intro c t h; exact absurd h (by simp [stripLeft])
  | cons a as ih =>
    intro c t h
    by_cases ha : pyIsSpace a = true
    · rw [stripLeft_cons_ws ha] at h
      exact ih h
    · rw [stripLeft_cons_nws (by simpa using ha)] at h
      obtain rfl : a = c := by injection h
      simpa using ha

theorem stripLeft_all_ws {w : List Char} (hw : ∀ c ∈ w, pyIsSpace c = true) :
    stripLeft w = [] := by
  have := stripLeft_append_ws hw ([] : List Char)
  simpa using this

theorem exists_rstrip_decomp (s : List Char) :
    ∃ w, (∀ c ∈ w, pyIsSpace c = true) ∧ s = rstrip s ++ w := by
  obtain ⟨w, hw, he⟩ := exists_stripLeft_decomp s.reverse
  refine ⟨w.reverse, fun c hc => hw c (List.mem_reverse.mp hc), ?_⟩
  have h2 := congrArg List.reverse he
  rw [List.reverse_reverse, List.reverse_append] at h2
  rw [rstrip]
  exact h2

theorem rstrip_all_ws {w : List Char} (hw : ∀ c ∈ w, pyIsSpace c = true) :
    rstrip w = [] := by
  rw [rstrip, stripLeft_all_ws (fun c hc => hw c (List.mem_reverse.mp hc))]
  rfl

theorem rstrip_append_ws {w : List Char} (hw : ∀ c ∈ w, pyIsSpace c = true)
    (s : List Char) : rstrip (s ++ w) = rstrip s := by
  rw [rstrip, rstrip, List.reverse_append,
    stripLeft_append_ws (fun c hc => hw c (List.mem_reverse.mp hc))]

theorem strip_decomp (s : List Char) :
    ∃ w1 w2, (∀ c ∈ w1, pyIsSpace c = true) ∧ (∀ c ∈ w2, pyIsSpace c = true) ∧
      s = w1 ++ strip s ++ w2 := by
  obtain ⟨w1, hw1, he1⟩ := exists_stripLeft_decomp s
  obtain ⟨w2, hw2, he2⟩ := exists_rstrip_decomp (stripLeft s)
  refine ⟨w1, w2, hw1, hw2, ?_⟩
  rw [strip, List.append_assoc, ← he2, ← he1]

theorem strip_append_ws_left {w : List Char} (hw : ∀ c ∈ w, pyIsSpace c = true)
    (s : List Char) : strip (w ++ s) = strip s := by
  rw [strip, strip, stripLeft_append_ws hw]

theorem strip_append_ws_right {w : List Char} (hw : ∀ c ∈ w, pyIsSpace c = true)
    (s : List Char) : strip (s ++ w) = strip s := by
  obtain ⟨w1, hw1, he1⟩ := exists_stripLeft_decomp s
  have h1 : stripLeft (s ++ w) = stripLeft (stripLeft s ++ w) := by
    conv_lhs => rw [he1]
    rw [List.append_assoc, stripLeft_append_ws hw1]
  cases hsl : stripLeft s with
  | nil =>
    rw [strip, h1, hsl, List.nil_append, strip, hsl]
    obtain ⟨w3, hw3, he3⟩ := exists_stripLeft_decomp w
    have hws3 : ∀ c ∈ stripLeft w, pyIsSpace c = true := by
      intro c hc
      exact hw c (by rw [he3]; exact List.mem_append_right _ hc)
    rw [rstrip_all_ws hws3]
    rfl
  | cons c t =>
    have hc : pyIsSpace c = false := stripLeft_head_nws hsl
    rw [strip, h1, hsl, List.cons_append, stripLeft_cons_nws hc, strip, hsl,
      ← List.cons_append, rstrip_append_ws hw]

theorem stripLeft_strip (s : List Char) : stripLeft (strip s) = strip s := by
  rw [strip]
  cases hsl : stripLeft s with
  | nil => rfl
  | cons c t =>
    have hc : pyIsSpace c = false := stripLeft_head_nws hsl
    obtain ⟨w, hw, he⟩ := exists_rstrip_decomp (c :: t)
    cases hr : rstrip (c :: t) with
    | nil => rfl
    | cons a u =>
      rw [hr] at he
      obtain rfl : c = a := by injection he
      exact stripLeft_cons_nws hc _

theorem strip_cons_nws {c : Char} (h : pyIsSpace c = false) (t : List Char) :
    strip (c :: t) = rstrip (c :: t) := by
  rw [strip, stripLeft_cons_nws h]

theorem rstrip_head (c : Char) (t : List Char) :
    rstrip (c :: t) = [] ∨ ∃ u w, rstrip (c :: t) = c :: u ∧
      (∀ d ∈ w, pyIsSpace d = true) ∧ t = u ++ w := by
  obtain ⟨w, hw, he⟩ := exists_rstrip_decomp (c :: t)
  cases hr : rstrip (c :: t) with
  | nil => exact Or.inl rfl
  | cons a u =>
    rw [hr] at he
    obtain rfl : c = a := by injection he
    refine Or.inr ⟨u, w, rfl, hw, ?_⟩
    injection he

theorem splitOnC_cons_eq (sep : Char) (s : List Char) :
    splitOnC sep (sep :: s) = [] :: splitOnC sep s := by
  simp [splitOnC]

theorem splitOnC_cons_ne {c sep : Char} (h : c ≠ sep) (s : List Char) :
    splitOnC sep (c :: s) = mapHead (c :: ·) (splitOnC sep s) := by
  simp [splitOnC, h]

theorem splitOnC_ne_nil (sep : Char) : ∀ s, splitOnC sep s ≠ [] := by
  intro s
  induction s with
  | nil => simp [splitOnC]
  | cons c cs ih =>
    by_cases h : c = sep
    · subst h
      rw [splitOnC_cons_eq]
      simp
    · rw [splitOnC_cons_ne h]
      cases hs : splitOnC sep cs with
      | nil => exact absurd hs ih
      | cons p ps => simp [mapHead]

theorem length_mapHead (g : List Char → List Char) (l : List (List Char)) :
    (mapHead g l).length = l.length := by
  cases l <;> simp [mapHead]

theorem length_mapLast (g : List Char → List Char) : ∀ l : List (List Char),
    (mapLast g l).length = l.length := by
  intro l
  induction l with
  | nil => rfl
  | cons p ps ih =>
    cases ps with
    | nil => rfl
    | cons q ps2 =>
      rw [mapLast, List.length_cons, List.length_cons, ih]

theorem mapHead_getD_zero (g : List Char → List Char) {l : List (List Char)}
    (h : l ≠ []) : (mapHead g l).getD 0 [] = g (l.getD 0 []) := by
  cases l with
  | nil => exact absurd rfl h
  | cons p ps => simp [mapHead]

theorem mapHead_getD_succ (g : List Char → List Char) (l : List (List Char)) (i : ℕ) :
    (mapHead g l).getD (i + 1) [] = l.getD (i + 1) [] := by
  cases l <;> simp [mapHead]

theorem mapLast_getD_lt (g : List Char → List Char) :
    ∀ (l : List (List Char)) (i : ℕ), i + 1 < l.length →
      (mapLast g l).getD i [] = l.getD i [] := by
  intro l
  induction l with
  | nil => intro i h; simp at h
  | cons p ps ih =>
    intro i h
    cases ps with
    | nil => simp at h
    | cons q ps2 =>
      rw [mapLast]
      cases i with
      | zero => simp
      | succ j =>
        simp only [List.getD_cons_succ]
        exact ih j (by simpa using h)

theorem mapLast_getD_last (g : List Char → List Char) :
    ∀ (l : List (List Char)) (i : ℕ), i + 1 = l.length →
      (mapLast g l).getD i [] = g (l.getD i []) := by
  intro l
  induction l with
  | nil => intro i h; simp at h
  | cons p ps ih =>
    intro i h
    cases ps with
    | nil =>
      have : i = 0 := by simpa using h
      subst this
      simp [mapLast]
    | cons q ps2 =>
      rw [mapLast]
      cases i with
      | zero => simp at h
      | succ j =>
        simp only [List.getD_cons_succ]
        exact ih j (by simpa using h)

theorem mapHead_comp_cons (c : Char) (w : List Char) (l : List (List Char)) :
    mapHead (c :: ·) (mapHead (w ++ ·) l) = mapHead ((c :: w) ++ ·) l := by
  cases l <;> simp [mapHead]

theorem mapHead_nil_append (l : List (List Char)) :
    mapHead (([] : List Char) ++ ·) l = l := by
  cases l <;> simp [mapHead]

theorem splitOnC_append_left {sep : Char} {w : List Char} (hw : ∀ c ∈ w, c ≠ sep)
    (s : List Char) : splitOnC sep (w ++ s) = mapHead (w ++ ·) (splitOnC sep s) := by
  induction w with
  | nil => rw [List.nil_append, mapHead_nil_append]
  | cons c cs ih =>
    rw [List.cons_append, splitOnC_cons_ne (hw c (by simp)),
      ih (fun d hd => hw d (by simp [hd])), mapHead_comp_cons]

theorem splitOnC_no_sep {sep : Char} : ∀ {s : List Char}, (∀ c ∈ s, c ≠ sep) →
    splitOnC sep s = [s] := by
  intro s
  induction s with
  | nil => intro _; rfl
  | cons c cs ih =>
    intro h
    rw [splitOnC_cons_ne (h c (by simp)), ih (fun d hd => h d (by simp [hd]))]
    rfl

theorem mapLast_cons_of_ne_nil (g : List Char → List Char) (x : List Char)
    {xs : List (List Char)} (h : xs ≠ []) : mapLast g (x :: xs) = x :: mapLast g xs := by
  cases xs with
  | nil => exact absurd rfl h
  | cons y ys => rw [mapLast]

theorem splitOnC_append_right {sep : Char} {w : List Char} (hw : ∀ c ∈ w, c ≠ sep) :
    ∀ s : List Char, splitOnC sep (s ++ w) = mapLast (· ++ w) (splitOnC sep s) := by
  intro s
  induction s with
  | nil =>
    rw [List.nil_append, splitOnC_no_sep hw]
    rfl
  | cons c cs ih =>
    by_cases h : c = sep
    · subst h
      rw [List.cons_append, splitOnC_cons_eq, splitOnC_cons_eq, ih,
        mapLast_cons_of_ne_nil _ _ (splitOnC_ne_nil _ _)]
    · rw [List.cons_append, splitOnC_cons_ne h, splitOnC_cons_ne h, ih]
      cases hs : splitOnC sep cs with
      | nil => exact absurd hs (splitOnC_ne_nil _ _)
      | cons p ps =>
        cases ps with
        | nil => simp [mapLast, mapHead]
        | cons q ps2 => simp [mapLast, mapHead]

theorem startsWithL_iff : ∀ (s pat : List Char),
    startsWithL s pat = true ↔ ∃ r, s = pat ++ r := by
  intro s pat
  induction pat generalizing s with
  | nil => simp [startsWithL]
  | cons d ds ih =>
    cases s with
    | nil =>
      simp only [startsWithL]
      constructor
      · intro h; exact absurd h (by simp)
      · rintro ⟨r, hr⟩; exact absurd hr (by simp)
    | cons c cs =>
      rw [startsWithL, Bool.and_eq_true, decide_eq_true_iff, ih cs]
      constructor
      · rintro ⟨rfl, r, rfl⟩
        exact ⟨r, rfl⟩
      · rintro ⟨r, hr⟩
        rw [List.cons_append] at hr
        injection hr with h1 h2
        exact ⟨h1, r, h2⟩

/-! ### Shape lemmas for the date-token test -/

theorem matchesDateTok_shape {p : List Char} (h : matchesDateTok p = true) :
    ∃ a b c d e f g k t, p = a :: b :: c :: d :: e :: f :: g :: k :: t := by
  match p with
  | a :: b :: c :: d :: e :: f :: g :: k :: t => exact ⟨a, b, c, d, e, f, g, k, t, rfl⟩
  | [] => exact absurd h (by simp [matchesDateTok])
  | [a] => exact absurd h (by simp [matchesDateTok])
  | [a, b] => exact absurd h (by simp [matchesDateTok])
  | [a, b, c] => exact absurd h (by simp [matchesDateTok])
  | [a, b, c, d] => exact absurd h (by simp [matchesDateTok])
  | [a, b, c, d, e] => exact absurd h (by simp [matchesDateTok])
  | [a, b, c, d, e, f] => exact absurd h (by simp [matchesDateTok])
  | [a, b, c, d, e, f, g] => exact absurd h (by simp [matchesDateTok])

theorem matchesDateTok_cons8 (a b c d e f g k : Char) (t s : List Char) :
    matchesDateTok (a :: b :: c :: d :: e :: f :: g :: k :: t) =
      matchesDateTok (a :: b :: c :: d :: e :: f :: g :: k :: s) := rfl

theorem matchesDateTok_append {p : List Char} (h : matchesDateTok p = true)
    (r : List Char) : matchesDateTok (p ++ r) = true := by
  obtain ⟨a, b, c, d, e, f, g, k, t, rfl⟩ := matchesDateTok_shape h
  rw [show (a :: b :: c :: d :: e :: f :: g :: k :: t) ++ r =
    a :: b :: c :: d :: e :: f :: g :: k :: (t ++ r) from rfl]
  rw [matchesDateTok_cons8 a b c d e f g k (t ++ r) t]
  exact h

theorem matchesDateTok_head_digit : ∀ {c : Char} {t : List Char},
    matchesDateTok (c :: t) = true → c.isDigit = true := by
  intro c t h
  obtain ⟨a, b, c2, d, e, f, g, k, t2, he⟩ := matchesDateTok_shape h
  obtain rfl : c = a := by injection he
  rw [he] at h
  rw [matchesDateTok] at h
  simp only [Bool.and_eq_true] at h
  exact h.1.1.1.1.1.1.1

theorem matchesDateTok_nil : matchesDateTok [] = false := rfl

theorem digit_not_ws {c : Char} (h : c.isDigit = true) : pyIsSpace c = false := by
  cases hp : pyIsSpace c
  · rfl
  · exfalso
    rw [pyIsSpace] at hp
    simp only [Bool.or_eq_true, decide_eq_true_iff] at hp
    rcases hp with ((((h1 | h1) | h1) | h1) | h1) | h1 <;> subst h1 <;>
      exact absurd h (by decide)

theorem matchesDateTok_rstrip {y : List Char} (h : matchesDateTok y = true) :
    matchesDateTok (rstrip y) = true := by
  obtain ⟨w, hw, he⟩ := exists_rstrip_decomp y
  obtain ⟨a, b, c, d, e, f, g, k, t, hy⟩ := matchesDateTok_shape h
  have hform := h
  rw [hy, matchesDateTok] at hform
  simp only [Bool.and_eq_true, decide_eq_true_iff] at hform
  obtain ⟨⟨⟨⟨⟨⟨⟨ha, hb⟩, hc⟩, hd⟩, hee⟩, hf⟩, hg⟩, hk⟩ := hform
  have he2 : rstrip y ++ w = [a, b, c, d, e, f, g, k] ++ t := by
    rw [← he, hy]
    rfl
  rcases List.append_eq_append_iff.mp he2 with ⟨a2, h8, hw2⟩ | ⟨c2, hr2, _⟩
  · cases a2 with
    | nil =>
      rw [List.append_nil] at h8
      rw [← h8]
      have : matchesDateTok [a, b, c, d, e, f, g, k] =
          matchesDateTok (a :: b :: c :: d :: e :: f :: g :: k :: t) :=
        matchesDateTok_cons8 a b c d e f g k [] t
      rw [this, ← hy]
      exact h
    | cons x xs =>
      exfalso
      have hxw : pyIsSpace x = true := hw x (by rw [hw2]; simp)
      have hx8 : x ∈ [a, b, c, d, e, f, g, k] := by
        rw [h8]
        exact List.mem_append_right _ (by simp)
      simp only [List.mem_cons, List.not_mem_nil, or_false] at hx8
      rcases hx8 with rfl | rfl | rfl | rfl | rfl | rfl | rfl | rfl
      · rw [digit_not_ws ha] at hxw; exact absurd hxw (by simp)
      · rw [digit_not_ws hb] at hxw; exact absurd hxw (by simp)
      · rw [hc] at hxw; exact absurd hxw (by decide)
      · rw [digit_not_ws hd] at hxw; exact absurd hxw (by simp)
      · rw [digit_not_ws hee] at hxw; exact absurd hxw (by simp)
      · rw [hf] at hxw; exact absurd hxw (by decide)
      · rw [digit_not_ws hg] at hxw; exact absurd hxw (by simp)
      · rw [digit_not_ws hk] at hxw; exact absurd hxw (by simp)
  · rw [hr2]
    have : ([a, b, c, d, e, f, g, k] : List Char) ++ c2 =
        a :: b :: c :: d :: e :: f :: g :: k :: c2 := rfl
    rw [this, matchesDateTok_cons8 a b c d e f g k c2 t, ← hy]
    exact h

theorem matchesDateTok_strip_head_false {c : Char} (hn : pyIsSpace c = false)
    (hd : c.isDigit = false) (t : List Char) : matchesDateTok (strip (c :: t)) = false := by
  rw [strip_cons_nws hn]
  rcases rstrip_head c t with h | ⟨u, w, h, _, _⟩
  · rw [h]
    rfl
  · rw [h]
    cases hm : matchesDateTok (c :: u)
    · rfl
    · rw [matchesDateTok_head_digit hm] at hd
      exact absurd hd (by simp)

theorem nth0_cons_ne {c sep : Char} (h : c ≠ sep) (s : List Char) :
    (splitOnC sep (c :: s)).getD 0 [] = c :: (splitOnC sep s).getD 0 [] := by
  rw [splitOnC_cons_ne h, mapHead_getD_zero _ (splitOnC_ne_nil _ _)]

theorem splitOnC_head_getD (sep : Char) : ∀ s : List Char,
    ∃ r, s = (splitOnC sep s).getD 0 [] ++ r := by
  intro s
  induction s with
  | nil => exact ⟨[], rfl⟩
  | cons c cs ih =>
    by_cases h : c = sep
    · subst h
      rw [splitOnC_cons_eq]
      exact ⟨c :: cs, rfl⟩
    · obtain ⟨r, hr⟩ := ih
      refine ⟨r, ?_⟩
      rw [nth0_cons_ne h, List.cons_append, ← hr]

theorem parts_strip_rel (raw : List Char) :
    (splitOnC '|' raw).length = (splitOnC '|' (strip raw)).length ∧
    ∀ i, i < (splitOnC '|' (strip raw)).length →
      strip ((splitOnC '|' raw).getD i []) = strip ((splitOnC '|' (strip raw)).getD i []) := by
  obtain ⟨w1, w2, hw1, hw2, he⟩ := strip_decomp raw
  have hne1 : ∀ c ∈ w1, c ≠ '|' := by
    intro c hc hcp
    have := hw1 c hc
    rw [hcp] at this
    exact absurd this (by decide)
  have hne2 : ∀ c ∈ w2, c ≠ '|' := by
    intro c hc hcp
    have := hw2 c hc
    rw [hcp] at this
    exact absurd this (by decide)
  have hsplit : splitOnC '|' raw =
      mapHead (w1 ++ ·) (mapLast (· ++ w2) (splitOnC '|' (strip raw))) := by
    conv_lhs => rw [he]
    rw [List.append_assoc, splitOnC_append_left hne1, splitOnC_append_right hne2]
  have hPne : splitOnC '|' (strip raw) ≠ [] := splitOnC_ne_nil _ _
  have hLne : mapLast (· ++ w2) (splitOnC '|' (strip raw)) ≠ [] := by
    intro hcontra
    have hl := length_mapLast (· ++ w2) (splitOnC '|' (strip raw))
    rw [hcontra] at hl
    exact hPne (List.eq_nil_of_length_eq_zero hl.symm)
  constructor
  · rw [hsplit, length_mapHead, length_mapLast]
  · intro i hi
    rw [hsplit]
    cases i with
    | zero =>
      rw [mapHead_getD_zero _ hLne, strip_append_ws_left hw1]
      by_cases h1 : (0 : ℕ) + 1 = (splitOnC '|' (strip raw)).length
      · rw [mapLast_getD_last _ _ _ h1, strip_append_ws_right hw2]
      · rw [mapLast_getD_lt _ _ _ (lt_of_le_of_ne (by omega) h1)]
    | succ j =>
      rw [mapHead_getD_succ]
      by_cases h1 : j + 1 + 1 = (splitOnC '|' (strip raw)).length
      · rw [mapLast_getD_last _ _ _ h1, strip_append_ws_right hw2]
      · rw [mapLast_getD_lt _ _ _ (lt_of_le_of_ne (by omega) h1)]

theorem parseLine_eval {raw : List Char} (sid pg : List Char)
    (h4 : 4 ≤ (splitOnC '|' (strip raw)).length)
    (hd : matchesDateTok (strip ((splitOnC '|' (strip raw)).getD 0 [])) = true) :
    parseLine sid pg raw = some ⟨sid, pg,
      strip ((splitOnC '|' (strip raw)).getD 0 []),
      strip ((splitOnC '|' (strip raw)).getD 1 []),
      strip ((splitOnC '|' (strip raw)).getD 2 []),
      strip ((splitOnC '|' (strip raw)).getD 3 [])⟩ := by
  have hmne : strip raw ≠ [] := by
    intro hc
    rw [hc] at h4
    exact absurd h4 (by decide)
  have hmnt : strip raw ≠ noTransTok := by
    intro hc
    rw [hc] at h4
    exact absurd h4 (by decide)
  have hie : (strip raw).isEmpty = false := by
    cases hsr : strip raw with
    | nil => exact absurd hsr hmne
    | cons c t => rfl
  have hfence : startsWithL (strip raw) fenceTok = false := by
    cases hsw : startsWithL (strip raw) fenceTok
    · rfl
    · exfalso
      obtain ⟨r, hr⟩ := (startsWithL_iff _ _).mp hsw
      have hg : (splitOnC '|' (strip raw)).getD 0 [] =
          '\x60' :: (splitOnC '|' ('\x60' :: '\x60' :: r)).getD 0 [] := by
        rw [hr, show fenceTok ++ r = '\x60' :: '\x60' :: '\x60' :: r from rfl,
          nth0_cons_ne (by decide)]
      rw [hg, matchesDateTok_strip_head_false (by decide) (by decide)] at hd
      exact absurd hd (by simp)
  have hhdr : startsWithL (strip raw) hdrTok = false := by
    cases hsw : startsWithL (strip raw) hdrTok
    · rfl
    · exfalso
      obtain ⟨r, hr⟩ := (startsWithL_iff _ _).mp hsw
      have hg : (splitOnC '|' (strip raw)).getD 0 [] = ['D', 'A', 'T', 'E'] := by
        rw [hr, show hdrTok ++ r = 'D' :: 'A' :: 'T' :: 'E' :: '|' ::
          ("POSTING".data ++ r) from rfl, nth0_cons_ne (by decide),
          nth0_cons_ne (by decide), nth0_cons_ne (by decide), nth0_cons_ne (by decide),
          splitOnC_cons_eq]
        rfl
      rw [hg] at hd
      exact absurd hd (by decide)
  simp only [parseLine, nth]
  rw [if_neg (by simp [hie, hmnt]), if_neg (by simp [hfence, hhdr]),
    if_neg (by omega), if_pos hd]

theorem aiwLine_eval {raw : List Char} (sid pg : List Char)
    (h4 : 4 ≤ (splitOnC '|' (strip raw)).length)
    (hd : matchesDateTok (strip ((splitOnC '|' (strip raw)).getD 0 [])) = true) :
    aiwLine sid pg raw = some ⟨sid, pg,
      strip ((splitOnC '|' (strip raw)).getD 0 []),
      strip ((splitOnC '|' (strip raw)).getD 1 []),
      strip ((splitOnC '|' (strip raw)).getD 2 []),
      strip ((splitOnC '|' (strip raw)).getD 3 [])⟩ := by
  have hpipe : '|' ∈ strip raw := by
    by_contra hnm
    have hne : ∀ c ∈ strip raw, c ≠ '|' := fun c hc he => hnm (he ▸ hc)
    have h1 : splitOnC '|' (strip raw) = [strip raw] := splitOnC_no_sep hne
    rw [h1] at h4
    simp at h4
  have hline : matchesDateTok (strip raw) = true := by
    obtain ⟨r, hr⟩ := splitOnC_head_getD '|' (strip raw)
    cases hseg : (splitOnC '|' (strip raw)).getD 0 [] with
    | nil =>
      rw [hseg] at hd
      exact absurd hd (by decide)
    | cons c t =>
      rw [hseg] at hd hr
      have hcnws : pyIsSpace c = false := by
        cases hws : pyIsSpace c
        · rfl
        · exfalso
          have h1 : stripLeft (strip raw) = strip raw := stripLeft_strip raw
          rw [hr, List.cons_append, stripLeft_cons_ws hws] at h1
          have h2 := congrArg List.length h1
          have h3 := stripLeft_length_le (t ++ r)
          rw [h2] at h3
          simp at h3
      rw [strip_cons_nws hcnws] at hd
      rcases rstrip_head c t with hnil | ⟨u, w, hru, hwss, htu⟩
      · rw [hnil] at hd
        exact absurd hd (by decide)
      · rw [hru] at hd
        have hm2 : strip raw = (c :: u) ++ (w ++ r) := by
          rw [hr, htu]
          simp
        rw [hm2]
        exact matchesDateTok_append hd (w ++ r)
  simp only [aiwLine, nth]
  rw [if_pos (by simp [hpipe, hline]), if_neg (by omega)]

/-- C2: for every input line splitting into at least 4 pipe segments whose
trimmed first segment starts with the `DD/MM/YY` date token, the line parser
(both the batch_extract_all.py and the ai_workflow.py variant) produces
exactly one record whose four core fields are the trimmed segments 0-3, and
both extraction loops emit records in input-line order (`filterMap` over the
split lines). -/
theorem c2_pipe_line_parsing :
    (∀ (sid pg raw : List Char),
      4 ≤ (splitOnC '|' raw).length →
      matchesDateTok (strip ((splitOnC '|' raw).getD 0 [])) = true →
      parseLine sid pg raw = some ⟨sid, pg,
          strip ((splitOnC '|' raw).getD 0 []), strip ((splitOnC '|' raw).getD 1 []),
          strip ((splitOnC '|' raw).getD 2 []), strip ((splitOnC '|' raw).getD 3 [])⟩ ∧
        aiwLine sid pg raw = some ⟨sid, pg,
          strip ((splitOnC '|' raw).getD 0 []), strip ((splitOnC '|' raw).getD 1 []),
          strip ((splitOnC '|' raw).getD 2 []), strip ((splitOnC '|' raw).getD 3 [])⟩) ∧
    (∀ (output sid pg : List Char),
      output.isEmpty = false → output ≠ noTransTok → containsSub output errTok = false →
      parse_transactions output sid pg = (splitOnC '\n' output).filterMap (parseLine sid pg)) ∧
    (∀ (output sid pg : List Char),
      output.isEmpty = false → containsSub output noTransTok = false →
      extract_with_opencode output sid pg = (splitOnC '\n' output).filterMap (aiwLine sid pg)) := by
  refine ⟨?_, ?_, ?_⟩
  · intro sid pg raw h4 hd
    obtain ⟨hlen, hnth⟩ := parts_strip_rel raw
    have h4s : 4 ≤ (splitOnC '|' (strip raw)).length := by omega
    have hd0 := hnth 0 (by omega)
    have hd1 := hnth 1 (by omega)
    have hd2 := hnth 2 (by omega)
    have hd3 := hnth 3 (by omega)
    have hds : matchesDateTok (strip ((splitOnC '|' (strip raw)).getD 0 [])) = true := by
      rw [← hd0]
      exact hd
    rw [parseLine_eval sid pg h4s hds, aiwLine_eval sid pg h4s hds, hd0, hd1, hd2, hd3]
    exact ⟨rfl, rfl⟩
  · intro output sid pg he hnt herr
    rw [parse_transactions, if_neg (by simp [he, hnt, herr])]
  · intro output sid pg he hnt
    rw [extract_with_opencode, if_neg (by simp [he, hnt])]

theorem c2_pipe_line_parsing_witness :
    4 ≤ (splitOnC '|' "  19/05/25 | 20/05/25 |ANTHROPIC X| 182.70  ".data).length ∧
    matchesDateTok
      (strip ((splitOnC '|' "  19/05/25 | 20/05/25 |ANTHROPIC X| 182.70  ".data).getD 0 [])) =
      true ∧
    parseLine "S".data "1".data "  19/05/25 | 20/05/25 |ANTHROPIC X| 182.70  ".data =
      some ⟨"S".data, "1".data, "19/05/25".data, "20/05/25".data, "ANTHROPIC X".data,
        "182.70".data⟩ ∧
    parse_transactions "19/05/25|20/05/25|GOOD SHOP|100.00".data "S".data "1".data =
      (splitOnC '\n' "19/05/25|20/05/25|GOOD SHOP|100.00".data).filterMap
        (parseLine "S".data "1".data) ∧
    extract_with_opencode "19/05/25|20/05/25|GOOD SHOP|100.00".data "S".data "1".data =
      (splitOnC '\n' "19/05/25|20/05/25|GOOD SHOP|100.00".data).filterMap
        (aiwLine "S".data "1".data) := by
  refine ⟨by decide, by decide, ?_, ?_, ?_⟩
  · have h := (c2_pipe_line_parsing.1 "S".data "1".data
      "  19/05/25 | 20/05/25 |ANTHROPIC X| 182.70  ".data (by decide) (by decide)).1
    rw [h]
    decide
  · exact c2_pipe_line_parsing.2.1 _ "S".data "1".data (by decide) (by decide) (by decide)
  · exact c2_pipe_line_parsing.2.2 _ "S".data "1".data (by decide) (by decide)

/-! ### C3: what the parse stage actually validates -/

theorem digit_ne_pipe {c : Char} (h : c.isDigit = true) : c ≠ '|' := by
  intro he
  rw [he] at h
  exact absurd h (by decide)

/-- C3 counterexample: a line whose posting date has the wrong shape and whose
amount does not parse as a number is still forwarded by `parse_transactions`
of batch_extract_all.py — only the transaction date is validated. -/
theorem c3_counterexample :
    parse_transactions "19/05/25|XX|Shop|NOT_A_NUMBER".data "S".data "1".data =
      [⟨"S".data, "1".data, "19/05/25".data, "XX".data, "Shop".data, "NOT_A_NUMBER".data⟩] ∧
    matchesDateTok "XX".data = false ∧
    parseF (stripCommas "NOT_A_NUMBER".data) = none := by
  refine ⟨by decide, by decide, by decide⟩

/-- C3 amended: the parse stage validates only the transaction date (both
parser variants guarantee that the forwarded record's transaction_date starts
with the date token); posting_date and amount are forwarded without any check
(see the counterexample).  Unparseable amounts are dropped later: nothing
downstream of the mode-A filter carries an unparseable amount. -/
theorem c3_amended_only_transaction_date_validated :
    (∀ (sid pg raw : List Char) (r : Txn), parseLine sid pg raw = some r →
      matchesDateTok r.transaction_date = true) ∧
    (∀ (sid pg raw : List Char) (r : Txn), aiwLine sid pg raw = some r →
      matchesDateTok r.transaction_date = true) ∧
    (∀ (rows : List Txn) (r : Txn), r ∈ filter_ai_transactions rows →
      ∃ f, parseF (stripCommas r.amount) = some f) := by
  refine ⟨?_, ?_, ?_⟩
  · intro sid pg raw r h
    simp only [parseLine, nth] at h
    split at h
    · exact absurd h (by simp)
    · split at h
      · exact absurd h (by simp)
      · split at h
        · exact absurd h (by simp)
        · split at h
          · obtain rfl : (⟨sid, pg, strip ((splitOnC '|' (strip raw)).getD 0 []),
              strip ((splitOnC '|' (strip raw)).getD 1 []),
              strip ((splitOnC '|' (strip raw)).getD 2 []),
              strip ((splitOnC '|' (strip raw)).getD 3 [])⟩ : Txn) = r :=
              Option.some.inj h
            assumption
          · exact absurd h (by simp)
  · intro sid pg raw r h
    simp only [aiwLine, nth] at h
    split at h
    case isTrue hcond =>
      rw [Bool.and_eq_true, decide_eq_true_iff] at hcond
      obtain ⟨_, hm⟩ := hcond
      split at h
      · exact absurd h (by simp)
      · obtain rfl : (⟨sid, pg, strip ((splitOnC '|' (strip raw)).getD 0 []),
            strip ((splitOnC '|' (strip raw)).getD 1 []),
            strip ((splitOnC '|' (strip raw)).getD 2 []),
            strip ((splitOnC '|' (strip raw)).getD 3 [])⟩ : Txn) = r :=
          Option.some.inj h
        obtain ⟨a, b, c, d, e, f, g, k, t, hshape⟩ := matchesDateTok_shape hm
        have hform := hm
        rw [hshape, matchesDateTok] at hform
        simp only [Bool.and_eq_true, decide_eq_true_iff] at hform
        obtain ⟨⟨⟨⟨⟨⟨⟨ha, hb⟩, hc⟩, hd⟩, hee⟩, hf⟩, hg⟩, hk⟩ := hform
        have hseg : (splitOnC '|' (strip raw)).getD 0 [] =
            a :: b :: c :: d :: e :: f :: g :: k :: ((splitOnC '|' t).getD 0 []) := by
          rw [hshape, nth0_cons_ne (digit_ne_pipe ha), nth0_cons_ne (digit_ne_pipe hb),
            nth0_cons_ne (by rw [hc]; decide), nth0_cons_ne (digit_ne_pipe hd),
            nth0_cons_ne (digit_ne_pipe hee), nth0_cons_ne (by rw [hf]; decide),
            nth0_cons_ne (digit_ne_pipe hg), nth0_cons_ne (digit_ne_pipe hk)]
        have hsm : matchesDateTok ((splitOnC '|' (strip raw)).getD 0 []) = true := by
          rw [hseg,
            matchesDateTok_cons8 a b c d e f g k ((splitOnC '|' t).getD 0 []) t,
            ← hshape]
          exact hm
        show matchesDateTok (strip ((splitOnC '|' (strip raw)).getD 0 [])) = true
        rw [hseg, strip_cons_nws (digit_not_ws ha)]
        have := matchesDateTok_rstrip (hseg ▸ hsm)
        exact this
    case isFalse => exact absurd h (by simp)
  · intro rows r h
    rw [filter_ai_transactions, List.mem_filter] at h
    have hk := h.2
    rw [keepAI, Bool.and_eq_true] at hk
    obtain ⟨_, hp⟩ := hk
    cases hf : parseF (stripCommas r.amount) with
    | none => rw [hf] at hp; exact absurd hp (by simp)
    | some f => exact ⟨f, rfl⟩

theorem c3_amended_only_transaction_date_validated_witness :
    matchesDateTok "19/05/25".data = true ∧
    (∃ f, parseF (stripCommas "182.70".data) = some f) := by
  constructor
  · exact c3_amended_only_transaction_date_validated.1 "S".data "1".data
      "19/05/25|XX|Shop|NOT_A_NUMBER".data
      ⟨"S".data, "1".data, "19/05/25".data, "XX".data, "Shop".data, "NOT_A_NUMBER".data⟩
      (by decide)
  · exact c3_amended_only_transaction_date_validated.2.2
      [⟨"S".data, "1".data, "19/05/25".data, "20/05/25".data,
        "ANTHROPIC ANTHROPIC.COMUS USD 5.35".data, "182.70".data⟩]
      ⟨"S".data, "1".data, "19/05/25".data, "20/05/25".data,
        "ANTHROPIC ANTHROPIC.COMUS USD 5.35".data, "182.70".data⟩
      (by decide)

/-! ### C8: the OCR composite pattern is anchored at the start only -/

/-- A matcher is splittable when running it with a continuation is the same as
matching some prefix exactly and handing the remainder to the continuation. -/
def Splittable (C : List Char → (List Char → Bool) → Bool) : Prop :=
  ∀ s k, C s k = true ↔
    ∃ u v, s = u ++ v ∧ C u (fun t => t.isEmpty) = true ∧ k v = true

theorem splittable_epsC : Splittable epsC := by
  intro s k
  constructor
  · intro h
    exact ⟨[], s, rfl, rfl, h⟩
  · rintro ⟨u, v, rfl, hu, hv⟩
    cases u with
    | nil => exact hv
    | cons a u2 => exact absurd hu (by simp [epsC])

theorem splittable_chrM (p : Char → Bool) : Splittable (chrM p) := by
  intro s k
  cases s with
  | nil =>
    constructor
    · intro h
      exact absurd h (by simp [chrM])
    · rintro ⟨u, v, he, hu, hv⟩
      obtain ⟨rfl, rfl⟩ : u = [] ∧ v = [] := List.append_eq_nil.mp he.symm
      exact absurd hu (by simp [chrM])
  | cons c cs =>
    constructor
    · intro h
      rw [chrM, Bool.and_eq_true] at h
      exact ⟨[c], cs, rfl, by simp [chrM, h.1], h.2⟩
    · rintro ⟨u, v, he, hu, hv⟩
      cases u with
      | nil => exact absurd hu (by simp [chrM])
      | cons a u2 =>
        rw [chrM, Bool.and_eq_true] at hu
        obtain ⟨hpa, hu2⟩ := hu
        have hu2e : u2 = [] := by
          cases u2 with
          | nil => rfl
          | cons b u3 => exact absurd hu2 (by simp)
        subst hu2e
        rw [List.singleton_append] at he
        injection he with h1 h2
        subst h1
        subst h2
        rw [chrM, Bool.and_eq_true]
        exact ⟨hpa, hv⟩

theorem splittable_plusC (p : Char → Bool) : Splittable (plusC p) := by
  intro s k
  constructor
  · intro h
    induction s generalizing k with
    | nil => exact absurd h (by simp [plusC])
    | cons c cs ih =>
      rw [plusC, Bool.and_eq_true, Bool.or_eq_true] at h
      obtain ⟨hpc, hk | hrec⟩ := h
      · exact ⟨[c], cs, rfl, by simp [plusC, hpc], hk⟩
      · obtain ⟨u2, v, rfl, hu2, hv⟩ := ih k hrec
        refine ⟨c :: u2, v, rfl, ?_, hv⟩
        rw [plusC, Bool.and_eq_true, Bool.or_eq_true]
        exact ⟨hpc, Or.inr hu2⟩
  · rintro ⟨u, v, rfl, hu, hv⟩
    induction u with
    | nil => exact absurd hu (by simp [plusC])
    | cons c u2 ih =>
      rw [plusC, Bool.and_eq_true, Bool.or_eq_true] at hu
      obtain ⟨hpc, hu2 | hu2⟩ := hu
      · have : u2 = [] := by
          cases u2 with
          | nil => rfl
          | cons b u3 => exact absurd hu2 (by simp)
        subst this
        rw [List.cons_append, List.nil_append, plusC, Bool.and_eq_true, Bool.or_eq_true]
        exact ⟨hpc, Or.inl hv⟩
      · rw [List.cons_append, plusC, Bool.and_eq_true, Bool.or_eq_true]
        exact ⟨hpc, Or.inr (ih hu2)⟩

theorem splittable_seqC {A B : List Char → (List Char → Bool) → Bool}
    (hA : Splittable A) (hB : Splittable B) : Splittable (seqC A B) := by
  intro s k
  constructor
  · intro h
    rw [seqC] at h
    obtain ⟨u1, v1, rfl, hu1, hv1⟩ := (hA s _).mp h
    obtain ⟨u2, v2, rfl, hu2, hv2⟩ := (hB v1 k).mp hv1
    refine ⟨u1 ++ u2, v2, (List.append_assoc u1 u2 v2).symm, ?_, hv2⟩
    rw [seqC]
    exact (hA (u1 ++ u2) _).mpr ⟨u1, u2, rfl, hu1, hu2⟩
  · rintro ⟨u, v, rfl, hu, hv⟩
    rw [seqC] at hu
    obtain ⟨u1, u2, rfl, hu1, hu2⟩ := (hA u _).mp hu
    rw [seqC, List.append_assoc]
    refine (hA (u1 ++ (u2 ++ v)) _).mpr ⟨u1, u2 ++ v, rfl, hu1, ?_⟩
    exact (hB (u2 ++ v) k).mpr ⟨u2, v, rfl, hu2, hv⟩

theorem splittable_altC {A B : List Char → (List Char → Bool) → Bool}
    (hA : Splittable A) (hB : Splittable B) : Splittable (altC A B) := by
  intro s k
  constructor
  · intro h
    rw [altC, Bool.or_eq_true] at h
    rcases h with h | h
    · obtain ⟨u, v, rfl, hu, hv⟩ := (hA s k).mp h
      refine ⟨u, v, rfl, ?_, hv⟩
      rw [altC, Bool.or_eq_true]
      exact Or.inl hu
    · obtain ⟨u, v, rfl, hu, hv⟩ := (hB s k).mp h
      refine ⟨u, v, rfl, ?_, hv⟩
      rw [altC, Bool.or_eq_true]
      exact Or.inr hu
  · rintro ⟨u, v, rfl, hu, hv⟩
    rw [altC, Bool.or_eq_true] at hu ⊢
    rcases hu with hu | hu
    · exact Or.inl ((hA (u ++ v) k).mpr ⟨u, v, rfl, hu, hv⟩)
    · exact Or.inr ((hB (u ++ v) k).mpr ⟨u, v, rfl, hu, hv⟩)

theorem splittable_dateTokM : Splittable dateTokM :=
  splittable_seqC (splittable_chrM _) (splittable_seqC (splittable_chrM _)
    (splittable_seqC (splittable_chrM _) (splittable_seqC (splittable_chrM _)
      (splittable_seqC (splittable_chrM _) (splittable_seqC (splittable_chrM _)
        (splittable_seqC (splittable_chrM _) (splittable_seqC (splittable_chrM _)
          (splittable_altC splittable_epsC (splittable_seqC (splittable_chrM _)
            (splittable_altC splittable_epsC (splittable_chrM _)))))))))))

theorem splittable_amountM : Splittable amountM :=
  splittable_seqC (splittable_altC (splittable_chrM _) splittable_epsC)
    (splittable_seqC (splittable_plusC _) (splittable_seqC (splittable_chrM _)
      (splittable_seqC (splittable_chrM _) (splittable_chrM _))))

theorem splittable_ocrLineMatch : Splittable ocrLineMatch :=
  splittable_seqC splittable_dateTokM (splittable_seqC (splittable_plusC _)
    (splittable_seqC splittable_dateTokM (splittable_seqC (splittable_plusC _)
      (splittable_seqC (splittable_plusC _)
        (splittable_seqC (splittable_plusC _) splittable_amountM)))))

/-- C8 counterexample: `re.match` does not anchor the pattern at the end of
the line, so a line with trailing characters directly after the amount is
accepted by the fixed-column parser of extract_transactions.py even though the
amount is not at line end (the anchored reading of the pattern rejects it). -/
theorem c8_counterexample :
    ocrAccepts "01/01/25 02/01/25 SHOP 1.00abc".data = true ∧
    ocrAcceptsAnchored "01/01/25 02/01/25 SHOP 1.00abc".data = false := by
  refine ⟨by decide, by decide⟩

/-- C8 amended: the fixed-column parser accepts a line iff the composite
pattern (date token, whitespace, date token, whitespace, description,
whitespace, signed two-decimal amount) matches some PREFIX of the stripped
line; in particular every line where the match reaches the end of the line is
accepted, but trailing characters after the amount are tolerated too.  Lines
with no matching prefix yield no record. -/
theorem c8_amended_prefix_match :
    (∀ raw : List Char, ocrAcceptsAnchored raw = true → ocrAccepts raw = true) ∧
    (∀ raw : List Char, ocrAccepts raw = true ↔
      ∃ u v, strip raw = u ++ v ∧ ocrLineMatch u (fun t => t.isEmpty) = true) := by
  constructor
  · intro raw h
    rw [ocrAccepts]
    rw [ocrAcceptsAnchored] at h
    exact (splittable_ocrLineMatch (strip raw) _).mpr
      ⟨strip raw, [], (List.append_nil _).symm, h, rfl⟩
  · intro raw
    rw [ocrAccepts]
    constructor
    · intro h
      obtain ⟨u, v, he, hu, _⟩ := (splittable_ocrLineMatch (strip raw) _).mp h
      exact ⟨u, v, he, hu⟩
    · rintro ⟨u, v, he, hu⟩
      exact (splittable_ocrLineMatch (strip raw) _).mpr ⟨u, v, he, hu, rfl⟩

theorem c8_amended_prefix_match_witness :
    ocrAcceptsAnchored "01/01/25 02/01/25 SHOPEE BANGKOK TH 1,199.00".data = true ∧
    ocrAccepts "01/01/25 02/01/25 SHOPEE BANGKOK TH 1,199.00".data = true := by
  refine ⟨by decide, ?_⟩
  exact c8_amended_prefix_match.1 "01/01/25 02/01/25 SHOPEE BANGKOK TH 1,199.00".data
    (by decide)

end TxPipeline
